import Mathlib

/-!
Verification of the free-text record extraction and import/export
reconciliation pipeline of the mashangji app.

The definitions below are a shallow embedding of the TypeScript sources:
* `src/services/geminiService.ts` (`analyzeText`): response normalization,
  candidate coercion and zero-amount suppression;
* `src/components/Settings.tsx` (`handleExport`, `handleImport`, second
  component version starting at line 412): backup serialization and
  line-oriented import reconciliation;
* `src/components/AddRecord.tsx` (`handleBatchImport`): circle resolution
  for batch-saving extracted candidates.

JavaScript strings are modelled as `List Char`; JS numbers as `Rat`
(every JS number used by this pipeline is a finite decimal); the
nondeterministic `generateId` (timestamp + random suffix) is modelled as
an id-supply parameter `gen : Nat → String`.
-/

/-- Whitespace class used by both JS `\s` and `String.prototype.trim`
(common subset: ASCII whitespace, NBSP, BOM, ideographic space). -/
def jsWsChar (c : Char) : Bool :=
  c = ' ' || c = '\t' || c = '\n' || c = '\r' || c = '\u000b' ||
  c = '\u000c' || c = '\u00a0' || c = '\ufeff' || c = '\u3000'

/-- JS regexp `.`: any char except line terminators. -/
def dotOk (c : Char) : Bool :=
  !(c = '\n' || c = '\r' || c = '\u2028' || c = '\u2029')

def isDigitC (c : Char) : Bool := '0' ≤ c && c ≤ '9'

/-- `l.dropWhile jsWsChar`: the model of skipping `\s*`. -/
def dropWsL (l : List Char) : List Char := l.dropWhile jsWsChar

/-- JS `String.prototype.trim` on a char list. -/
def jsTrimL (l : List Char) : List Char :=
  ((l.dropWhile jsWsChar).reverse.dropWhile jsWsChar).reverse

/-- JS `content.split('\n')`. -/
def splitNlL : List Char → List (List Char)
  | [] => [[]]
  | c :: r =>
    if c = '\n' then [] :: splitNlL r
    else
      match splitNlL r with
      | [] => [[c]]
      | l :: ls => (c :: l) :: ls

/-- JS `lines.join('\n')`. -/
def joinNlL : List (List Char) → List Char
  | [] => []
  | [l] => l
  | l :: ls => l ++ '\n' :: joinNlL ls

/-- JS `note.replace(/\n/g, ' ')`. -/
def replaceNlSpace (l : List Char) : List Char :=
  l.map (fun c => if c = '\n' then ' ' else c)

/-- Fuel-driven digit accumulator for `natDigits`. -/
def natDigitsAux : Nat → Nat → List Char → List Char
  | 0, _, acc => acc
  | fuel + 1, n, acc =>
    if n = 0 then acc
    else natDigitsAux fuel (n / 10) (Char.ofNat (48 + n % 10) :: acc)

/-- Decimal digits of a natural number, most significant first
(faithful to JS decimal printing of integers). -/
def natDigits (n : Nat) : List Char :=
  if n = 0 then ['0'] else natDigitsAux (n + 1) n []

/-- JS `${i}` for an integer. -/
def intDigits (i : Int) : List Char :=
  (if i < 0 then ['-'] else []) ++ natDigits i.natAbs

/-- Digits of `m` left-padded with zeros to width `k`
(the fractional digits of a decimal expansion). -/
def padDigits (k : Nat) (m : Nat) : List Char :=
  let ds := natDigits m
  List.replicate (k - ds.length) '0' ++ ds

/-- Least `k` with `den ∣ 10 ^ k` (searched up to `den`, which suffices
whenever `den = 2 ^ a * 5 ^ b`, the only denominators JS numbers have). -/
def decExp (den : Nat) : Option Nat :=
  (List.range (den + 1)).find? (fun k => 10 ^ k % den = 0)

/-- JS number-to-string conversion, restricted to the values this app
produces: integers print without a decimal point, and finite decimals
(the only non-integers a binary float can hold) print as
`intpart.fracdigits` without trailing zeros (the minimal exponent found
by `decExp` guarantees the last digit is nonzero).  Denominators that
are not of the form `2^a * 5^b` cannot arise from JS numbers; for
totality they fall back to printing the numerator. -/
def ratToJsChars (q : Rat) : List Char :=
  if q.den = 1 then intDigits q.num
  else
    match decExp q.den with
    | some k =>
      let n := q.num.natAbs * (10 ^ k / q.den)
      (if q.num < 0 then ['-'] else []) ++
        natDigits (n / 10 ^ k) ++ '.' :: padDigits k (n % 10 ^ k)
    | none => intDigits q.num

/- ### The untyped JSON value model (geminiService works on `any`) -/

inductive Json where
  | null : Json
  | bool : Bool → Json
  | num : Rat → Json
  | str : String → Json
  | arr : List Json → Json
  | obj : List (String × Json) → Json

/-- Field lookup (`parsed.foo`); `JSON.parse` collapses duplicate keys,
so the parser below never produces them. -/
def jsGetField (j : Json) (k : String) : Option Json :=
  match j with
  | .obj fs => (fs.find? (fun kv => kv.1 = k)).map (fun kv => kv.2)
  | _ => none

/-- JS truthiness of a JSON value. -/
def jsTruthy : Json → Bool
  | .null => false
  | .bool b => b
  | .num q => q ≠ 0
  | .str s => s ≠ ""
  | .arr _ => true
  | .obj _ => true

/-- JS `Number(string)` on a trimmed nonempty string: optional sign,
digits, optional fractional digits (exponent/hex forms are not produced
by this pipeline and coerce to `none` = NaN). -/
def strCharsToNum (l : List Char) : Option Rat :=
  let (sgn, l') : Bool × List Char :=
    match l with
    | '-' :: r => (true, r)
    | '+' :: r => (false, r)
    | _ => (false, l)
  let ip := l'.takeWhile isDigitC
  let rest := l'.dropWhile isDigitC
  let build : Nat → Nat → Nat → Option Rat := fun whole fracNum fracLen =>
    let v : Rat := (whole : Rat) + (fracNum : Rat) / ((10 : Rat) ^ fracLen)
    some (if sgn then -v else v)
  match rest with
  | [] => if ip = [] then none else build (natValOf ip) 0 0
  | '.' :: fr =>
    let fd := fr.takeWhile isDigitC
    if fr.dropWhile isDigitC = [] ∧ (ip ≠ [] ∨ fd ≠ []) then
      build (natValOf ip) (natValOf fd) fd.length
    else none
  | _ => none
where natValOf (ds : List Char) : Nat :=
  ds.foldl (fun a c => a * 10 + (c.toNat - 48)) 0

/-- JS `Number(x)` where `none` models NaN.  (`Number([x])` goes through
`toString`; the common singleton cases are reproduced, other exotic
array/object coercions yield NaN.) -/
def jsToNumber : Json → Option Rat
  | .null => some 0
  | .bool b => some (if b then 1 else 0)
  | .num q => some q
  | .str s =>
    let t := jsTrimL s.data
    if t = [] then some 0 else strCharsToNum t
  | .arr [] => some 0
  | .arr [Json.null] => some 0
  | .arr [Json.num q] => some q
  | .arr [Json.str s] =>
    let t := jsTrimL s.data
    if t = [] then some 0 else strCharsToNum t
  | .arr _ => none
  | .obj _ => none

/- ### A JSON parser modelling `JSON.parse` (fuel-based) -/

def jsonWs (c : Char) : Bool := c = ' ' || c = '\t' || c = '\n' || c = '\r'

def skipJsonWs (l : List Char) : List Char := l.dropWhile jsonWs

def hexVal (c : Char) : Option Nat :=
  if isDigitC c then some (c.toNat - 48)
  else if 'a' ≤ c && c ≤ 'f' then some (c.toNat - 87)
  else if 'A' ≤ c && c ≤ 'F' then some (c.toNat - 55)
  else none

/-- Parse the body of a JSON string literal (after the opening quote). -/
def parseJsonStr : Nat → List Char → Option (List Char × List Char)
  | 0, _ => none
  | _ + 1, [] => none
  | fuel + 1, c :: r =>
    if c = '"' then some ([], r)
    else if c = '\\' then
      match r with
      | [] => none
      | e :: r' =>
        let esc : Option (Char × List Char) :=
          if e = '"' then some ('"', r')
          else if e = '\\' then some ('\\', r')
          else if e = '/' then some ('/', r')
          else if e = 'b' then some ('\x08', r')
          else if e = 'f' then some ('\x0c', r')
          else if e = 'n' then some ('\n', r')
          else if e = 'r' then some ('\r', r')
          else if e = 't' then some ('\t', r')
          else if e = 'u' then
            match r' with
            | h1 :: h2 :: h3 :: h4 :: r'' =>
              match hexVal h1, hexVal h2, hexVal h3, hexVal h4 with
              | some a, some b, some c', some d =>
                some (Char.ofNat (((a * 16 + b) * 16 + c') * 16 + d), r'')
              | _, _, _, _ => none
            | _ => none
          else none
        match esc with
        | some (ch, rr) =>
          (parseJsonStr fuel rr).map (fun (s, rest) => (ch :: s, rest))
        | none => none
    else (parseJsonStr fuel r).map (fun (s, rest) => (c :: s, rest))

/-- Parse a JSON number (after optional leading minus handled by caller). -/
def parseJsonNum (l : List Char) : Option (Rat × List Char) :=
  let neg := match l with | '-' :: _ => true | _ => false
  let l1 := match l with | '-' :: r => r | _ => l
  let ip := l1.takeWhile isDigitC
  let r1 := l1.dropWhile isDigitC
  if ip = [] then none
  else
    let whole : Rat := (strCharsToNum.natValOf ip : Rat)
    let (v, r2) : Rat × List Char :=
      match r1 with
      | '.' :: fr =>
        let fd := fr.takeWhile isDigitC
        if fd = [] then (whole, r1)
        else (whole + (strCharsToNum.natValOf fd : Rat) / (10 : Rat) ^ fd.length,
              fr.dropWhile isDigitC)
      | _ => (whole, r1)
    let (v', r3) : Rat × List Char :=
      match r2 with
      | 'e' :: t => parseExp v t r2
      | 'E' :: t => parseExp v t r2
      | _ => (v, r2)
    some (if neg then -v' else v', r3)
where parseExp (v : Rat) (t : List Char) (orig : List Char) : Rat × List Char :=
  let eneg := match t with | '-' :: _ => true | _ => false
  let t1 := match t with | '-' :: u => u | '+' :: u => u | _ => t
  let ed := t1.takeWhile isDigitC
  if ed = [] then (v, orig)
  else
    let e := strCharsToNum.natValOf ed
    ((if eneg then v / (10 : Rat) ^ e else v * (10 : Rat) ^ e),
     t1.dropWhile isDigitC)

/-- Insert a key/value pair, replacing an existing binding (JS object
semantics: last duplicate key wins, first position kept). -/
def objInsert (k : String) (v : Json) : List (String × Json) → List (String × Json)
  | [] => [(k, v)]
  | (k', v') :: fs => if k' = k then (k, v) :: fs else (k', v') :: objInsert k v fs

mutual

def parseJsonVal : Nat → List Char → Option (Json × List Char)
  | 0, _ => none
  | fuel + 1, l =>
    match skipJsonWs l with
    | [] => none
    | c :: r =>
      if c = '{' then
        match skipJsonWs r with
        | '}' :: r' => some (.obj [], r')
        | r' => parseJsonMembers fuel r' []
      else if c = '[' then
        match skipJsonWs r with
        | ']' :: r' => some (.arr [], r')
        | r' => parseJsonElems fuel r' []
      else if c = '"' then
        (parseJsonStr (r.length + 1) r).map
          (fun (s, rest) => (Json.str (String.mk s), rest))
      else if c = 't' then
        match r with
        | 'r' :: 'u' :: 'e' :: r' => some (.bool true, r')
        | _ => none
      else if c = 'f' then
        match r with
        | 'a' :: 'l' :: 's' :: 'e' :: r' => some (.bool false, r')
        | _ => none
      else if c = 'n' then
        match r with
        | 'u' :: 'l' :: 'l' :: r' => some (.null, r')
        | _ => none
      else
        (parseJsonNum (c :: r)).map (fun (q, rest) => (Json.num q, rest))

def parseJsonMembers : Nat → List Char → List (String × Json) →
    Option (Json × List Char)
  | 0, _, _ => none
  | fuel + 1, l, acc =>
    match skipJsonWs l with
    | '"' :: r =>
      match parseJsonStr (r.length + 1) r with
      | none => none
      | some (k, r1) =>
        match skipJsonWs r1 with
        | ':' :: r2 =>
          match parseJsonVal fuel r2 with
          | none => none
          | some (v, r3) =>
            let acc' := objInsert (String.mk k) v acc
            match skipJsonWs r3 with
            | ',' :: r4 => parseJsonMembers fuel r4 acc'
            | '}' :: r4 => some (.obj acc', r4)
            | _ => none
        | _ => none
    | _ => none

def parseJsonElems : Nat → List Char → List Json → Option (Json × List Char)
  | 0, _, _ => none
  | fuel + 1, l, acc =>
    match parseJsonVal fuel l with
    | none => none
    | some (v, r) =>
      match skipJsonWs r with
      | ',' :: r' => parseJsonElems fuel r' (acc ++ [v])
      | ']' :: r' => some (.arr (acc ++ [v]), r')
      | _ => none

end

/-- `JSON.parse`: the whole text must be consumed (modulo whitespace). -/
def jsonParse (l : List Char) : Option Json :=
  match parseJsonVal (2 * l.length + 8) l with
  | some (v, rest) => if skipJsonWs rest = [] then some v else none
  | none => none

/- ### Candidate coercion (geminiService.ts lines 173-187) -/

/-- The well-typed shape `analyzeText` maps each raw candidate into
(`amount`/`isWin` are genuinely coerced; `date`/`note`/`circleName` are
passed through as the untyped JS values the `||` defaults produce). -/
structure ParsedRecordT where
  amount : Rat
  isWin : Bool
  date : Json
  note : Json
  circleName : Option Json

/-- `Number(item.amount) || 0`: NaN and 0 collapse to 0. -/
def coerceAmount (f : Option Json) : Rat :=
  match f with
  | some j => (jsToNumber j).getD 0
  | none => 0

/-- `Boolean(item.isWin)`. -/
def coerceIsWin (f : Option Json) : Bool :=
  match f with
  | some j => jsTruthy j
  | none => false

/-- `item.f || dflt` for a pass-through field. -/
def jsOrDefault (f : Option Json) (dflt : Json) : Json :=
  match f with
  | some j => if jsTruthy j then j else dflt
  | none => dflt

/-- One step of the `data.map(...)` in `analyzeText`. -/
def coerceItem (todayStr : String) (item : Json) : ParsedRecordT :=
  { amount := coerceAmount (jsGetField item ("amount"))
    isWin := coerceIsWin (jsGetField item ("isWin"))
    date := jsOrDefault (jsGetField item ("date")) (Json.str todayStr)
    note := jsOrDefault (jsGetField item ("note")) (Json.str "")
    circleName :=
      match jsGetField item ("circleName") with
      | some j => if jsTruthy j then some j else none
      | none => none }

/-- JS `String.prototype.includes` on char lists. -/
def isInfixL (pat : List Char) (l : List Char) : Bool :=
  match l with
  | [] => pat.isEmpty
  | _ :: r => pat.isPrefixOf l || isInfixL pat r

/-- The zero/draw cue regexp `/0|零|平|没输|没赢/.test(text)`. -/
def zeroKeyword (text : String) : Bool :=
  isInfixL ("0").data text.data || isInfixL ("零").data text.data ||
  isInfixL ("平").data text.data || isInfixL ("没输").data text.data ||
  isInfixL ("没赢").data text.data

/-- The suppression filter: a coerced candidate survives unless its
amount is 0 and the source text lacks a zero/draw cue. -/
def keepItem (text : String) (it : ParsedRecordT) : Bool :=
  if it.amount = 0 then zeroKeyword text else true

def isNullJson : Json → Bool
  | .null => true
  | _ => false

/-- `data.map(...).filter(...)`; accessing `.amount` on a `null` element
throws a TypeError in JS, which the surrounding catch turns into an
analysis failure. -/
def coerceList (data : List Json) (text : String) (todayStr : String) :
    Except String (List ParsedRecordT) :=
  if data.any isNullJson then Except.error ("TypeError: null candidate")
  else Except.ok ((data.map (coerceItem todayStr)).filter (keepItem text))

/- ### Response normalization (geminiService.ts lines 124-171) -/

/-- Remove every occurrence of `pat` (JS `replace(/pat/g, '')`),
fuel-driven for structural termination. -/
def removeAllAux (pat : List Char) : Nat → List Char → List Char
  | 0, l => l
  | _ + 1, [] => []
  | fuel + 1, c :: rest =>
    if pat ≠ [] ∧ pat.isPrefixOf (c :: rest) then
      removeAllAux pat fuel ((c :: rest).drop pat.length)
    else c :: removeAllAux pat fuel rest

def removeAll (pat : List Char) (l : List Char) : List Char :=
  removeAllAux pat l.length l

def backtickC : Char := Char.ofNat 96

def fenceJsonPat : List Char :=
  [backtickC, backtickC, backtickC, 'j', 's', 'o', 'n']

def fencePat : List Char := [backtickC, backtickC, backtickC]

/-- `textResponse.replace(/```json/g,'').replace(/```/g,'').trim()`. -/
def stripFences (raw : List Char) : List Char :=
  jsTrimL (removeAll fencePat (removeAll fenceJsonPat raw))

/-- `jsonString.indexOf(c)`. -/
def firstIdxOf (c : Char) (l : List Char) : Option Nat := l.findIdx? (· = c)

/-- `jsonString.lastIndexOf(c)`. -/
def lastIdxOf (c : Char) (l : List Char) : Option Nat :=
  (l.reverse.findIdx? (· = c)).map (fun i => l.length - 1 - i)

/-- Slice to the outermost OBJECT span: `substring(firstCurly,
lastCurly+1)` whenever both braces exist in order (the code never
extracts an array span). -/
def sliceJsonSpan (l : List Char) : List Char :=
  match firstIdxOf '{' l, lastIdxOf '}' l with
  | some f, some t => if f < t then (l.take (t + 1)).drop f else l
  | _, _ => l

/-- The shape-canonicalization branches of `analyzeText` (lines
135-158): prefer a `records` array field, then a bare array, then a
record-shaped object, then a single-array-keyed wrapper; `parsed.records`
on `null` throws.  Anything else leaves `data = []`. -/
def canonicalData (parsed : Json) : Except String (List Json) :=
  match parsed with
  | .null => Except.error ("TypeError: cannot read records of null")
  | _ =>
    match jsGetField parsed ("records") with
    | some (Json.arr xs) => Except.ok xs
    | _ =>
      match parsed with
      | .arr xs => Except.ok xs
      | .obj fs =>
        if (jsGetField parsed ("amount")).isSome ∨
            (jsGetField parsed ("isWin")).isSome then
          Except.ok [parsed]
        else
          match fs with
          | [(_, Json.arr xs)] => Except.ok xs
          | _ => Except.ok []
      | _ => Except.ok []

def headIsC (c : Char) : List Char → Bool
  | x :: _ => x = c
  | [] => false

def lastIsC (c : Char) (l : List Char) : Bool :=
  match l.getLast? with
  | some x => x = c
  | none => false

/-- The pure normalization core of `analyzeText` working on the raw
completion text: fence stripping, object-span slicing, `JSON.parse`
with the (dead, since reparsing is deterministic) bracket retry, shape
canonicalization, coercion and the zero-amount filter. -/
def normalizeCompletion (raw : String) (text : String) (todayStr : String) :
    Except String (List ParsedRecordT) :=
  let js := sliceJsonSpan (stripFences raw.data)
  match jsonParse js with
  | some parsed =>
    match canonicalData parsed with
    | Except.ok data => coerceList data text todayStr
    | Except.error e => Except.error e
  | none =>
    if headIsC '[' js ∧ lastIsC ']' js then
      match jsonParse js with
      | some (Json.arr xs) => coerceList xs text todayStr
      | _ => Except.error ("SyntaxError: JSON parse failed")
    else Except.error ("SyntaxError: JSON parse failed")

/- ### The credential gate and error taxonomy of `analyzeText` -/

/-- Outcome of the single completion request (the external collaborator):
either the completion content string, or a non-success HTTP status with
an optional server message. -/
inductive NetOutcome where
  | ok : String → NetOutcome
  | httpErr : Nat → Option String → NetOutcome

/-- Errors `analyzeText` can throw: the raw `'API Key is missing'`
thrown before the try block (and before any fetch), versus everything
that is caught and rethrown as `AI 分析失败: ...`. -/
inductive AnalyzeErr where
  | missingKey : AnalyzeErr
  | failed : String → AnalyzeErr

/-- JS `apiKey || env` truthiness on optional strings. -/
def truthyOpt (s : Option String) : Option String :=
  match s with
  | some v => if v = "" then none else some v
  | none => none

/-- Pure model of `analyzeText`: key resolution, the missing-credential
throw (issued before the network request, hence independent of `net`),
the HTTP-failure path and the normalization pipeline. -/
def analyzeModel (apiKey envKey : Option String) (net : NetOutcome)
    (text : String) (todayStr : String) :
    Except AnalyzeErr (List ParsedRecordT) :=
  match (truthyOpt apiKey).orElse (fun _ => truthyOpt envKey) with
  | none => Except.error AnalyzeErr.missingKey
  | some _ =>
    match net with
    | .httpErr status msg =>
      Except.error (.failed ("AI 分析失败: " ++
        (match msg with
         | some m => m
         | none => "HTTP Error: " ++ String.mk (natDigits status))))
    | .ok content =>
      match normalizeCompletion content text todayStr with
      | Except.ok l => Except.ok l
      | Except.error e => Except.error (.failed ("AI 分析失败: " ++ e))

/- ### Circle resolution in AddRecord.tsx (`handleBatchImport`) -/

structure CircleT where
  id : String
  name : String
  isDefault : Bool
deriving DecidableEq

/-- `handleBatchImport` lines 452-458: start from the currently selected
circle; if the candidate carries a truthy circle name, try an exact
(case-sensitive) full-name match and use that circle's id; otherwise
keep the selection.  No fuzzy matching and no circle creation happen
here. -/
def resolveBatchCircle (selectedId : String) (circles : List CircleT)
    (cn : Option Json) : String :=
  match cn with
  | some (Json.str s) =>
    match circles.find? (fun c => c.name = s) with
    | some c => c.id
    | none => selectedId
  | some _ => selectedId
  | none => selectedId

/- ### The import line grammar (Settings.tsx lines 541 and 552)

The two line regexps are embedded with JS backtracking semantics:
lazy groups (`(.+?)`) try the shortest capture first, `\s*` before a
literal is deterministic (maximal), and the one `\s*` that precedes a
lazy group backtracks from the maximal whitespace run downwards. -/

def lazyDotGo (k : List Char → List Char → Option α) :
    List Char → List Char → Option α
  | _, [] => none
  | acc, c :: rest =>
    if dotOk c then
      match k (acc ++ [c]) rest with
      | some a => some a
      | none => lazyDotGo k (acc ++ [c]) rest
    else none

/-- A lazy `(.+?)` group: grow the capture one `.`-matching char at a
time, first testing the continuation `k capture rest`. -/
def lazyDot (k : List Char → List Char → Option α) : List Char → Option α :=
  lazyDotGo k []

def wsLazyGo (k : List Char → List Char → Option α) (l : List Char) :
    Nat → Option α
  | 0 => lazyDot k l
  | n + 1 =>
    match lazyDot k (l.drop (n + 1)) with
    | some a => some a
    | none => wsLazyGo k l n

/-- Greedy `\s*` directly before a lazy group: try dropping the maximal
whitespace run first, then backtrack to shorter runs. -/
def wsLazy (k : List Char → List Char → Option α) (l : List Char) : Option α :=
  wsLazyGo k l ((l.takeWhile jsWsChar).length)

def expectCh (c : Char) : List Char → Option (List Char)
  | x :: r => if x = c then some r else none
  | [] => none

def expectPfx : List Char → List Char → Option (List Char)
  | [], l => some l
  | p :: ps, x :: r => if x = p then expectPfx ps r else none
  | _ :: _, [] => none

/-- `\d+` (greedy, at least one digit) with its decimal value. -/
def takeDigits1 (l : List Char) : Option (Nat × List Char) :=
  let ds := l.takeWhile isDigitC
  if ds.isEmpty then none
  else some (ds.foldl (fun a c => a * 10 + (c.toNat - 48)) 0,
             l.dropWhile isDigitC)

/-- `[+-]?\d+` with the `parseInt` value (consuming the sign commits to
digits following; otherwise the digit run must start immediately). -/
def takeSignDigits (l : List Char) : Option (Int × List Char) :=
  match l with
  | c :: r =>
    if c = '+' then (takeDigits1 r).map (fun p => ((p.1 : Int), p.2))
    else if c = '-' then (takeDigits1 r).map (fun p => (-(p.1 : Int), p.2))
    else (takeDigits1 (c :: r)).map (fun p => ((p.1 : Int), p.2))
  | [] => none

def beizhuL : List Char := ("备注:").data

def mingchengL : List Char := ("名称:").data

def morenL : List Char := ("默认:").data

def idColonL : List Char := ("ID:").data

/-- Continuation after the third `|` of the record regexp:
`\s*备注:(.*?)$` — the lazy star anchored at `$` captures the whole
remainder provided every char is `.`-matchable. -/
def recNoteTail (g3 : List Char) (r : List Char) : Option (List Char × List Char) :=
  match expectCh '|' (dropWsL r) with
  | none => none
  | some r1 =>
    match expectPfx beizhuL (dropWsL r1) with
    | none => none
    | some r2 => if r2.all dotOk then some (g3, r2) else none

/-- Continuation after the first capture of the record regexp:
`\s*\|\s*([+-]?\d+)\s*\|\s*(.+?)\s*\|\s*备注:(.*?)$`. -/
def recAfterDate (r : List Char) : Option (Int × List Char × List Char) :=
  match expectCh '|' (dropWsL r) with
  | none => none
  | some r1 =>
    match takeSignDigits (dropWsL r1) with
    | none => none
    | some (v, r2) =>
      match expectCh '|' (dropWsL r2) with
      | none => none
      | some r3 =>
        wsLazy (fun g3 r4 => (recNoteTail g3 r4).map (fun p => (v, p.1, p.2))) r3

/-- The record-line regexp
`/^(.+?)\s*\|\s*([+-]?\d+)\s*\|\s*(.+?)\s*\|\s*备注:(.*?)$/` returning
the four captures (date, parseInt amount, circle name, note). -/
def matchRecordLineL (l : List Char) :
    Option (List Char × Int × List Char × List Char) :=
  lazyDot (fun g1 r => (recAfterDate r).map (fun p => (g1, p))) l

/-- The circle-line regexp
`/^ID:(.+?)\s*\|\s*名称:(.+?)\s*\|\s*默认:(.+?)$/`. -/
def matchCircleLineL (l : List Char) :
    Option (List Char × List Char × List Char) :=
  match expectPfx idColonL l with
  | none => none
  | some r =>
    lazyDot (fun g1 r1 =>
      match expectCh '|' (dropWsL r1) with
      | none => none
      | some r2 =>
        match expectPfx mingchengL (dropWsL r2) with
        | none => none
        | some r3 =>
          lazyDot (fun g2 r4 =>
            match expectCh '|' (dropWsL r4) with
            | none => none
            | some r5 =>
              match expectPfx morenL (dropWsL r5) with
              | none => none
              | some r6 =>
                if !r6.isEmpty && r6.all dotOk then some (g1, g2, r6)
                else none) r3) r

/- ### Backup parsing (handleImport lines 521-564) -/

structure PCircle where
  id : String
  name : String
  isDefault : Bool
deriving DecidableEq

structure PRec where
  date : String
  amount : Int
  circleName : String
  note : String
deriving DecidableEq

inductive Sect where
  | noSect : Sect
  | circSect : Sect
  | recSect : Sect
deriving DecidableEq

def quanziL : List Char := ("圈子列表").data

def jizhangL : List Char := ("记账记录").data

/-- `trimmedLine.startsWith('[') && trimmedLine.endsWith(']')`. -/
def headerIs (t : List Char) : Bool :=
  (match t with | x :: _ => x = '[' | [] => false) &&
  (match t.getLast? with | some x => x = ']' | none => false)

/-- One loop iteration of the import line scan: skip blank lines,
switch sections on bracket-headed lines, otherwise apply the grammar of
the current section (malformed lines are silently skipped). -/
def parseBackupStep (st : Sect × List PCircle × List PRec) (line : List Char) :
    Sect × List PCircle × List PRec :=
  let t := jsTrimL line
  if t.isEmpty then st
  else if headerIs t then
    if isInfixL quanziL t then (Sect.circSect, st.2.1, st.2.2)
    else if isInfixL jizhangL t then (Sect.recSect, st.2.1, st.2.2)
    else (Sect.noSect, st.2.1, st.2.2)
  else
    match st.1 with
    | Sect.circSect =>
      match matchCircleLineL t with
      | some (g1, g2, g3) =>
        (st.1, st.2.1 ++ [⟨String.mk (jsTrimL g1), String.mk (jsTrimL g2),
                           jsTrimL g3 = ("是").data⟩], st.2.2)
      | none => st
    | Sect.recSect =>
      match matchRecordLineL t with
      | some (g1, v, g3, g4) =>
        (st.1, st.2.1, st.2.2 ++ [⟨String.mk (jsTrimL g1), v,
                                   String.mk (jsTrimL g3), String.mk (jsTrimL g4)⟩])
      | none => st
    | Sect.noSect => st

/-- `content.split('\n')` then the line scan. -/
def parseBackupL (content : List Char) : List PCircle × List PRec :=
  ((splitNlL content).foldl parseBackupStep (Sect.noSect, [], [])).2

/- ### Export serialization (handleExport lines 440-468) -/

structure RecordT where
  id : String
  circleId : String
  amount : Rat
  date : String
  note : String
deriving DecidableEq

def circleLineL (c : CircleT) : List Char :=
  idColonL ++ c.id.data ++ (" | ").data ++ mingchengL ++ c.name.data ++
    (" | ").data ++ morenL ++ (if c.isDefault then ("是").data else ("否").data)

/-- `r.amount > 0 ? '+' + r.amount : '' + r.amount`. -/
def amtFieldChars (q : Rat) : List Char :=
  (if 0 < q then ['+'] else []) ++ ratToJsChars q

def circleNameForL (circles : List CircleT) (r : RecordT) : List Char :=
  match circles.find? (fun c => c.id = r.circleId) with
  | some c => c.name.data
  | none => ("未知圈子").data

def recordLineL (circles : List CircleT) (r : RecordT) : List Char :=
  r.date.data ++ (" | ").data ++ amtFieldChars r.amount ++ (" | ").data ++
    circleNameForL circles r ++ (" | 备注:").data ++ replaceNlSpace r.note.data

/-- The full export body (the `导出时间`/`用户ID` header lines take the
locale timestamp and user id as parameters). -/
def exportLinesL (now uid : String) (circles : List CircleT)
    (records : List RecordT) : List (List Char) :=
  [("[麻上记账本数据导出]").data,
   ("导出时间: ").data ++ now.data,
   ("用户ID: ").data ++ uid.data,
   ("----------------------------------------").data,
   [],
   ("[圈子列表]").data] ++
  circles.map circleLineL ++
  [[], ("[记账记录]").data] ++
  records.map (recordLineL circles)

def exportTextL (now uid : String) (circles : List CircleT)
    (records : List RecordT) : List Char :=
  joinNlL (exportLinesL now uid circles records)

/- ### Import reconciliation (handleImport lines 566-692) -/

/-- Circle merge (lines 580-607): skip when an existing or already
staged circle shares the id, then the name; otherwise stage a copy
under a freshly generated id. -/
def mergeCircleStep (gen : Nat → String) (cur : List CircleT)
    (st : List CircleT × Nat × Nat) (pc : PCircle) : List CircleT × Nat × Nat :=
  let all := cur ++ st.1
  if (all.find? (fun c => c.id = pc.id)).isSome then st
  else if (all.find? (fun c => c.name = pc.name)).isSome then st
  else (st.1 ++ [⟨gen st.2.2, pc.name, pc.isDefault⟩], st.2.1 + 1, st.2.2 + 1)

/-- `updatedCircles.find(c => c.name === pr.circleName)` resolved to an
id, `''` when absent (the falsy default). -/
def resolveTarget (all : List CircleT) (name : String) : String :=
  match all.find? (fun c => c.name = name) with
  | some c => c.id
  | none => ""

/-- The content-based duplicate predicate (lines 630-635). -/
def isDupRec (target : String) (pr : PRec) (r : RecordT) : Bool :=
  r.date = pr.date && r.amount = (pr.amount : Rat) && r.note = pr.note &&
    ((target = "" && r.circleId = "") || r.circleId = target)

structure ImpSt where
  stagedC : List CircleT
  newRecs : List RecordT
  cnt : Nat
  ctr : Nat

/-- Tail of one record-merge iteration after circle resolution (lines
661-676): draw a fresh record id, run the (vacuous in practice) internal
batch dedup check, and stage the record. -/
def recordStage (gen : Nat → String) (st1 : ImpSt) (cid : String)
    (pr : PRec) : ImpSt :=
  let rid := gen st1.ctr
  let st2 : ImpSt := ⟨st1.stagedC, st1.newRecs, st1.cnt, st1.ctr + 1⟩
  if st2.newRecs.any (fun r => r.id = rid) then st2
  else ⟨st2.stagedC, st2.newRecs ++ [⟨rid, cid, (pr.amount : Rat), pr.date, pr.note⟩],
        st2.cnt, st2.ctr⟩

/-- One iteration of the record merge loop (lines 620-677): duplicate
check against the pre-import records, circle resolution with on-the-fly
creation under a fresh id, then staging the record under a fresh id. -/
def recordStep (gen : Nat → String) (cur : List CircleT)
    (curRecs : List RecordT) (st : ImpSt) (pr : PRec) : ImpSt :=
  let all := cur ++ st.stagedC
  let target := resolveTarget all pr.circleName
  if (curRecs.find? (isDupRec target pr)).isSome then st
  else
    match all.find? (fun c => c.name = pr.circleName) with
    | some c => recordStage gen st c.id pr
    | none =>
      recordStage gen
        ⟨st.stagedC ++ [⟨gen st.ctr, pr.circleName, false⟩], st.newRecs,
         st.cnt + 1, st.ctr + 1⟩
        (gen st.ctr) pr

structure ImportOut where
  stagedCircles : List CircleT
  newRecords : List RecordT
  newCirclesCount : Nat
  hasData : Bool

/-- The whole reconciliation pass: parse, merge circles, merge records.
The final store state is `cur ++ stagedCircles` / `curRecs ++
newRecords` (the record `timestamp` field, derived from the date and
irrelevant to reconciliation, is not modelled). -/
def runImport (gen : Nat → String) (content : List Char)
    (cur : List CircleT) (curRecs : List RecordT) : ImportOut :=
  let parsed := parseBackupL content
  let m := parsed.1.foldl (mergeCircleStep gen cur) ([], 0, 0)
  let stF := parsed.2.foldl (recordStep gen cur curRecs) ⟨m.1, [], m.2.1, m.2.2⟩
  { stagedCircles := stF.stagedC
    newRecords := stF.newRecs
    newCirclesCount := stF.cnt
    hasData := !(parsed.1.isEmpty && parsed.2.isEmpty) }

/- ### Well-formedness predicates and concrete data used by the claims -/

/-- A backup field that survives the pipe-and-trim grammar unchanged:
nonempty, trim-stable, free of `|` and of the line terminators the
regexp `.` rejects. -/
def fieldOkL (l : List Char) : Prop :=
  l ≠ [] ∧ jsTrimL l = l ∧ '|' ∉ l ∧ (∀ c ∈ l, dotOk c = true)

def fieldOk (s : String) : Prop := fieldOkL s.data

/-- A note that round-trips: line-terminator free and trim-stable (`|`
is allowed, since the note capture runs to end of line). -/
def noteOkL (l : List Char) : Prop :=
  jsTrimL l = l ∧ (∀ c ∈ l, dotOk c = true)

def noteOk (s : String) : Prop := noteOkL s.data

/-- Circles whose serialized lines cannot inject extra lines into the
backup (no embedded newline in id or name). -/
def circlesClean (cs : List CircleT) : Prop :=
  ∀ c ∈ cs, '\n' ∉ c.id.data ∧ '\n' ∉ c.name.data

/-- `[+-]?\d+` matching the whole char list, with its parseInt value. -/
def checkSignedDigits (l : List Char) : Option Int :=
  (takeSignDigits l).bind (fun p => if p.2.isEmpty then some p.1 else none)

def c7Circles : List CircleT :=
  [⟨"a", "同事圈", false⟩, ⟨"b", "老同学", false⟩]

def c1content : List Char :=
  ("[圈子列表]\nID:1 | 名称:雀神会 | 默认:否").data

def c2content : List Char :=
  ("[圈子列表]\nID:1 | 名称:雀神会 | 默认:否\n[记账记录]\n2024-02-14 | -190 | 雀神会 | 备注:x").data

def c2cur : List CircleT := [⟨"cid1", "雀神会", false⟩]

def c2recs : List RecordT := [⟨"rid1", "cid1", -190, "2024-02-14", "x"⟩]

def c5obj : Json := Json.obj [("amount", Json.num 0)]

/-- The circle row a well-formed circle line parses back to. -/
def toPC (c : CircleT) : PCircle := ⟨c.id, c.name, c.isDefault⟩

/-- Circles whose serialized id and name survive the pipe-and-trim
grammar unchanged. -/
def circlesFieldOk (cs : List CircleT) : Prop :=
  ∀ c ∈ cs, fieldOk c.id ∧ fieldOk c.name

def c8line : List Char := ("2024-02-14 | -190 | 雀神会 | 备注:hi").data

def c8lineOld : List Char :=
  ("2024-02-14 | -190 | 雀神会 | 备注:hi | ID:abc").data

def c6rec : RecordT := ⟨"rid1", "cid1", -190, "2024-02-14", "hello"⟩

def c10rec : RecordT := ⟨"rid1", "cid1", mkRat 1601 2, "2024-02-14", "hello"⟩

/- ### Theorems -/

/-- C9: invoking extraction with no API key configured (neither argument
nor environment, JS-falsy strings included) fails with the
missing-credential error regardless of the network outcome — i.e. before
any network request is issued — and that error is distinguishable from
the HTTP-failure and parse-failure errors, which both surface as
`AnalyzeErr.failed`. -/
theorem c9_missing_credential :
    (∀ (apiKey envKey : Option String) (net : NetOutcome) (text todayStr : String),
        truthyOpt apiKey = none → truthyOpt envKey = none →
        analyzeModel apiKey envKey net text todayStr =
          Except.error AnalyzeErr.missingKey) ∧
    (∀ (key : String) (status : Nat) (msg : Option String) (text todayStr : String),
        key ≠ "" →
        ∃ m, analyzeModel (some key) none (NetOutcome.httpErr status msg)
            text todayStr = Except.error (AnalyzeErr.failed m)) ∧
    (∀ m, AnalyzeErr.missingKey ≠ AnalyzeErr.failed m) := by
  refine ⟨fun apiKey envKey net text todayStr h1 h2 => ?_,
          fun key status msg text todayStr hk => ?_, fun m h => ?_⟩
  · simp [analyzeModel, h1, h2, Option.orElse]
  · refine ⟨"AI 分析失败: " ++
      (match msg with
       | some m => m
       | none => "HTTP Error: " ++ String.mk (natDigits status)), ?_⟩
    simp [analyzeModel, truthyOpt, hk, Option.orElse]
  · cases h

/-- Closed instance of `c9_missing_credential` at concrete inputs. -/
theorem c9_missing_credential_witness :
    analyzeModel none none (NetOutcome.ok ("whatever")) ("text") ("2024-01-01") =
      Except.error AnalyzeErr.missingKey ∧
    (∃ m, analyzeModel (some ("sk-1")) none (NetOutcome.httpErr 403 none)
        ("text") ("2024-01-01") = Except.error (AnalyzeErr.failed m)) ∧
    AnalyzeErr.missingKey ≠ AnalyzeErr.failed ("AI 分析失败: x") :=
  ⟨c9_missing_credential.1 none none _ _ _ rfl rfl,
   c9_missing_credential.2.1 _ 403 none _ _ (by decide),
   c9_missing_credential.2.2 _⟩

/-- C7 counterexample: with known circles 同事圈/老同学 and extracted
circle name 同事, batch-import resolution returns the currently selected
circle's id, not the id "a" of 同事圈 — the claimed fuzzy/substring step
does not exist in this code path. -/
theorem c7_resolution_cex :
    resolveBatchCircle ("sel") c7Circles (some (Json.str ("同事"))) = "sel" ∧
    ("sel" : String) ≠ "a" := by
  constructor
  · rfl
  · decide

/-- C7 amended: resolution tries only an exact, case-sensitive full-name
match; on failure, or when the name is absent or not a string, it falls
back to the currently selected circle's id.  It never creates a circle:
the result is always the selection or the id of an existing circle whose
name equals the extracted string exactly.  In particular 同事 does not
match 同事圈. -/
theorem c7_resolution_amended :
    (∀ (sel : String) (circles : List CircleT) (cn : Option Json),
        resolveBatchCircle sel circles cn = sel ∨
        ∃ c, c ∈ circles ∧ resolveBatchCircle sel circles cn = c.id ∧
          cn = some (Json.str c.name)) ∧
    (∀ (sel : String) (circles : List CircleT),
        resolveBatchCircle sel circles none = sel) ∧
    resolveBatchCircle ("sel") c7Circles (some (Json.str ("同事"))) = "sel" := by
  refine ⟨fun sel circles cn => ?_, fun sel circles => rfl, rfl⟩
  match cn with
  | none => exact Or.inl rfl
  | some Json.null => exact Or.inl rfl
  | some (Json.bool b) => exact Or.inl rfl
  | some (Json.num q) => exact Or.inl rfl
  | some (Json.arr xs) => exact Or.inl rfl
  | some (Json.obj fs) => exact Or.inl rfl
  | some (Json.str s) =>
    cases hf : circles.find? (fun c => c.name = s) with
    | none => exact Or.inl (by simp [resolveBatchCircle, hf])
    | some c =>
      refine Or.inr ⟨c, List.mem_of_find?_eq_some hf, by simp [resolveBatchCircle, hf], ?_⟩
      have := List.find?_some hf
      have hcn : c.name = s := of_decide_eq_true this
      rw [hcn]

/-- C4: the markdown-fenced `records`-wrapped completion from the spec is
repaired to exactly one candidate with amount 800 and isWin true (the
fences are stripped, the object span sliced, and the array-valued
`records` key unwrapped). -/
theorem c4_structural_repair :
    ∀ todayStr : String,
      normalizeCompletion
        ("```json\n\x7b\"records\":[\x7b\"date\":\"2024-02-06\",\"amount\":800,\"isWin\":true,\"note\":\"\",\"circleName\":null\x7d]\x7d\n```")
        ("随便") todayStr =
      Except.ok [⟨800, true, Json.str ("2024-02-06"), Json.str (""), none⟩] :=
  fun _ => rfl

/-- C3 counterexample: raw text that is exactly a bare two-element array
of record objects — an instance of the claim's "outermost JSON container
is a bare array of record objects" — fails to normalize, because the
code slices the OBJECT span (first `\x7b` to last `\x7d`), producing
invalid JSON, and never extracts the array span. -/
theorem c3_span_preference_cex :
    normalizeCompletion
      ("[\x7b\"amount\":1,\"isWin\":true\x7d,\x7b\"amount\":2,\"isWin\":false\x7d]")
      ("x") ("2024-01-01") =
    Except.error ("SyntaxError: JSON parse failed") := rfl

/-- C3 amended: the normalizer prefers the OBJECT span — it slices from
the first `\x7b` to the last `\x7d` whenever both exist in order, and an
array span is never extracted (witnessed by the bracket-stripping slice
on `[\x7ba\x7d]`).  A bare array of record objects survives only
degenerately: with exactly one element the object slice recovers that
single candidate (even with surrounding commentary), and with no braces
at all the whole text parses as an array; with two or more record
objects normalization fails (see the counterexample). -/
theorem c3_span_preference_amended :
    (∀ todayStr : String,
        normalizeCompletion ("answer: [\x7b\"amount\":800,\"isWin\":true\x7d] thanks")
          ("x") todayStr =
        Except.ok [⟨800, true, Json.str todayStr, Json.str (""), none⟩]) ∧
    normalizeCompletion ("[]") ("x") ("2024-01-01") = Except.ok [] ∧
    sliceJsonSpan (("[\x7ba\x7d]").data) = ("\x7ba\x7d").data := by
  exact ⟨fun _ => rfl, rfl, rfl⟩

/-- C5: a coerced candidate is kept by the zero-amount filter iff it
either has nonzero amount or the source text matches the zero/draw cue
pattern; the two spec texts land on opposite sides of that pattern. -/
theorem c5_zero_suppression :
    (∀ (data : List Json) (text todayStr : String)
        (res : List ParsedRecordT) (it : ParsedRecordT),
        coerceList data text todayStr = Except.ok res →
        (it ∈ res ↔
          it ∈ data.map (coerceItem todayStr) ∧
            (it.amount = 0 → zeroKeyword text = true))) ∧
    zeroKeyword ("随便说点什么") = false ∧
    zeroKeyword ("今天打平，没输没赢") = true := by
  refine ⟨fun data text todayStr res it hok => ?_, by decide, by decide⟩
  unfold coerceList at hok
  by_cases hn : data.any isNullJson
  · simp [hn] at hok
  · simp only [hn, if_neg, Bool.false_eq_true, not_false_eq_true, if_false] at hok
    cases hok
    constructor
    · intro hmem
      have h1 := List.mem_filter.mp hmem
      refine ⟨h1.1, fun h0 => ?_⟩
      have h2 := h1.2
      unfold keepItem at h2
      simpa [h0] using h2
    · intro h
      refine List.mem_filter.mpr ⟨h.1, ?_⟩
      unfold keepItem
      by_cases h0 : it.amount = 0
      · simpa [h0] using h.2 h0
      · simp [h0]

/-- Closed instance of `c5_zero_suppression`: a zero-amount candidate is
retained for the draw text 今天打平，没输没赢. -/
theorem c5_zero_suppression_witness :
    coerceItem ("2024-01-01") c5obj ∈
      (([c5obj].map (coerceItem ("2024-01-01"))).filter
        (keepItem ("今天打平，没输没赢"))) :=
  (c5_zero_suppression.1 [c5obj] _ _ _ _ rfl).mpr
    ⟨List.mem_singleton.mpr rfl, fun _ => by decide⟩

/-- Shape of one circle-merge step: either skipped, or staged under the
next freshly generated id. -/
theorem mergeCircleStep_shape (gen : Nat → String) (cur : List CircleT)
    (st : List CircleT × Nat × Nat) (pc : PCircle) :
    mergeCircleStep gen cur st pc = st ∨
    mergeCircleStep gen cur st pc =
      (st.1 ++ [⟨gen st.2.2, pc.name, pc.isDefault⟩], st.2.1 + 1, st.2.2 + 1) := by
  unfold mergeCircleStep
  dsimp only
  split
  · exact Or.inl rfl
  · split
    · exact Or.inl rfl
    · exact Or.inr rfl

/-- `recordStage` never touches the staged circles. -/
theorem recordStage_stagedC (gen : Nat → String) (st1 : ImpSt) (cid : String)
    (pr : PRec) : (recordStage gen st1 cid pr).stagedC = st1.stagedC := by
  unfold recordStage
  dsimp only
  split
  · rfl
  · rfl

/-- Shape of one record-merge step, projected to the staged circles:
either unchanged, or extended by an on-the-fly circle under the next
freshly generated id. -/
theorem recordStep_stagedC_shape (gen : Nat → String) (cur : List CircleT)
    (curRecs : List RecordT) (st : ImpSt) (pr : PRec) :
    (recordStep gen cur curRecs st pr).stagedC = st.stagedC ∨
    (recordStep gen cur curRecs st pr).stagedC =
      st.stagedC ++ [⟨gen st.ctr, pr.circleName, false⟩] := by
  unfold recordStep
  dsimp only
  split
  · exact Or.inl rfl
  · split
    · exact Or.inl (recordStage_stagedC _ _ _ _)
    · exact Or.inr (recordStage_stagedC _ _ _ _)

/-- Every circle staged by the circle-merge fold has a supply-generated
id (invariant preservation). -/
theorem mergeFold_ids (gen : Nat → String) (cur : List CircleT)
    (pcs : List PCircle) :
    ∀ (staged : List CircleT) (cnt ctr : Nat),
      (∀ c ∈ staged, ∃ k, c.id = gen k) →
      ∀ c ∈ (pcs.foldl (mergeCircleStep gen cur) (staged, cnt, ctr)).1,
        ∃ k, c.id = gen k := by
  induction pcs with
  | nil => intro staged cnt ctr h c hc; exact h c hc
  | cons pc pcs ih =>
    intro staged cnt ctr h c hc
    rw [List.foldl_cons] at hc
    rcases mergeCircleStep_shape gen cur (staged, cnt, ctr) pc with heq | heq
    · rw [heq] at hc
      exact ih staged cnt ctr h c hc
    · rw [heq] at hc
      refine ih _ _ _ (fun c' hc' => ?_) c hc
      rcases List.mem_append.mp hc' with h' | h'
      · exact h c' h'
      · rw [List.mem_singleton] at h'
        subst h'
        exact ⟨ctr, rfl⟩

/-- Every circle staged by the record-merge fold has a supply-generated
id (invariant preservation). -/
theorem recordFold_ids (gen : Nat → String) (cur : List CircleT)
    (curRecs : List RecordT) (prs : List PRec) :
    ∀ st : ImpSt,
      (∀ c ∈ st.stagedC, ∃ k, c.id = gen k) →
      ∀ c ∈ (prs.foldl (recordStep gen cur curRecs) st).stagedC,
        ∃ k, c.id = gen k := by
  induction prs with
  | nil => intro st h c hc; exact h c hc
  | cons pr prs ih =>
    intro st h c hc
    rw [List.foldl_cons] at hc
    rcases recordStep_stagedC_shape gen cur curRecs st pr with heq | heq
    · refine ih _ (fun c' hc' => h c' ?_) c hc
      rw [heq] at hc'
      exact hc'
    · refine ih _ (fun c' hc' => ?_) c hc
      rw [heq] at hc'
      rcases List.mem_append.mp hc' with h' | h'
      · exact h c' h'
      · rw [List.mem_singleton] at h'
        subst h'
        exact ⟨st.ctr, rfl⟩

/-- C1: every circle staged during reconciliation — from the circle
table or created on the fly for an unmatched record circle name — gets
an id drawn from the local generator supply; under the freshness of the
supply its id is never an id string from the file; and concretely,
importing the circle line `ID:1 | 名称:雀神会 | 默认:否` into an account
with no circle named 雀神会 (and no circle with id "1") stages exactly
one circle, freshly identified and not identified by "1". -/
theorem c1_fresh_identity (gen : Nat → String) (content : List Char)
    (cur : List CircleT) (curRecs : List RecordT) :
    (∀ c ∈ (runImport gen content cur curRecs).stagedCircles, ∃ k, c.id = gen k) ∧
    ((∀ k, ∀ pc ∈ (parseBackupL content).1, gen k ≠ pc.id) →
      ∀ c ∈ (runImport gen content cur curRecs).stagedCircles,
        ∀ pc ∈ (parseBackupL content).1, c.id ≠ pc.id) ∧
    ((∀ k, gen k ≠ "1") → (∀ c ∈ cur, c.id ≠ "1") → (∀ c ∈ cur, c.name ≠ "雀神会") →
      (runImport gen c1content cur curRecs).stagedCircles =
        [⟨gen 0, "雀神会", false⟩] ∧ gen 0 ≠ "1") := by
  have hmain : ∀ c ∈ (runImport gen content cur curRecs).stagedCircles,
      ∃ k, c.id = gen k := by
    intro c hc
    simp only [runImport] at hc
    refine recordFold_ids gen cur curRecs (parseBackupL content).2 _ ?_ c hc
    intro c' hc'
    exact mergeFold_ids gen cur (parseBackupL content).1 [] 0 0
      (fun c'' hc'' => absurd hc'' (List.not_mem_nil c'')) c' hc'
  refine ⟨hmain, fun hfresh c hc pc hpc => ?_, fun hg hid hname => ?_⟩
  · obtain ⟨k, hk⟩ := hmain c hc
    rw [hk]
    exact hfresh k pc hpc
  · have hp : parseBackupL c1content = ([⟨"1", "雀神会", false⟩], []) := by decide
    have hfid : (cur ++ ([] : List CircleT)).find?
        (fun c => decide (c.id = ("1" : String))) = none := by
      rw [List.find?_eq_none]
      intro c hc
      simp only [List.append_nil] at hc
      simp [hid c hc]
    have hfname : (cur ++ ([] : List CircleT)).find?
        (fun c => decide (c.name = ("雀神会" : String))) = none := by
      rw [List.find?_eq_none]
      intro c hc
      simp only [List.append_nil] at hc
      simp [hname c hc]
    refine ⟨?_, hg 0⟩
    simp only [runImport, hp, List.foldl_cons, List.foldl_nil]
    unfold mergeCircleStep
    dsimp only
    rw [hfid, hfname]
    simp

/-- Closed instance of `c1_fresh_identity`: importing the spec's circle
line into an empty account under the constant supply "gg" stages the
circle 雀神会 with id "gg", not "1". -/
theorem c1_fresh_identity_witness :
    (runImport (fun _ => "gg") c1content [] []).stagedCircles =
      [⟨"gg", "雀神会", false⟩] ∧ ("gg" : String) ≠ "1" :=
  (c1_fresh_identity (fun _ => "gg") c1content [] []).2.2
    (fun _ => by decide) (by simp) (by simp)

/-- Circle-merge fold with every parsed circle already matched by id or
by name stages nothing and keeps the counters. -/
theorem mergeFold_skip (gen : Nat → String) (cur : List CircleT)
    (pcs : List PCircle) (cnt ctr : Nat)
    (h : ∀ pc ∈ pcs, (∃ c ∈ cur, c.id = pc.id) ∨ (∃ c ∈ cur, c.name = pc.name)) :
    pcs.foldl (mergeCircleStep gen cur) ([], cnt, ctr) = ([], cnt, ctr) := by
  induction pcs with
  | nil => rfl
  | cons pc pcs ih =>
    have hpc := h pc (List.mem_cons_self pc pcs)
    have hstep : mergeCircleStep gen cur ([], cnt, ctr) pc = ([], cnt, ctr) := by
      unfold mergeCircleStep
      dsimp only
      rcases hpc with ⟨c, hc, hid⟩ | ⟨c, hc, hname⟩
      · have h1 : ((cur ++ ([] : List CircleT)).find?
            (fun c => decide (c.id = pc.id))).isSome := by
          rw [List.find?_isSome]
          exact ⟨c, by simpa using hc, by simp [hid]⟩
        rw [if_pos h1]
      · by_cases h1 : ((cur ++ ([] : List CircleT)).find?
            (fun c => decide (c.id = pc.id))).isSome
        · rw [if_pos h1]
        · have h2 : ((cur ++ ([] : List CircleT)).find?
              (fun c => decide (c.name = pc.name))).isSome := by
            rw [List.find?_isSome]
            exact ⟨c, by simpa using hc, by simp [hname]⟩
          rw [if_neg h1, if_pos h2]
    rw [List.foldl_cons, hstep]
    exact ih (fun pc' h' => h pc' (List.mem_cons_of_mem _ h'))

/-- Record-merge fold with every parsed record already matched by the
content-based duplicate predicate stages nothing. -/
theorem recordFold_skip (gen : Nat → String) (cur : List CircleT)
    (curRecs : List RecordT) (prs : List PRec) (cnt ctr : Nat)
    (h : ∀ pr ∈ prs, ∃ r ∈ curRecs,
        isDupRec (resolveTarget cur pr.circleName) pr r = true) :
    prs.foldl (recordStep gen cur curRecs) ⟨[], [], cnt, ctr⟩ =
      ⟨[], [], cnt, ctr⟩ := by
  induction prs with
  | nil => rfl
  | cons pr prs ih =>
    have hpr := h pr (List.mem_cons_self pr prs)
    have hstep : recordStep gen cur curRecs ⟨[], [], cnt, ctr⟩ pr =
        ⟨[], [], cnt, ctr⟩ := by
      unfold recordStep
      dsimp only
      have hdup : (curRecs.find?
          (isDupRec (resolveTarget (cur ++ ([] : List CircleT)) pr.circleName) pr)).isSome := by
        rw [List.find?_isSome]
        obtain ⟨r, hr, hd⟩ := hpr
        refine ⟨r, hr, ?_⟩
        simpa [List.append_nil] using hd
      rw [if_pos hdup]
    rw [List.foldl_cons, hstep]
    exact ih (fun pr' h' => h pr' (List.mem_cons_of_mem _ h'))

/-- C2: if the store already contains the result of importing a backup
text once — every parsed circle matched by id or name, and every parsed
record matched by an existing record with equal date, amount, note and
resolved circle id — then re-running the import stages zero circles and
zero records and leaves the store unchanged. -/
theorem c2_idempotent_reconciliation (gen : Nat → String) (content : List Char)
    (cur : List CircleT) (curRecs : List RecordT)
    (hc : ∀ pc ∈ (parseBackupL content).1,
        (∃ c ∈ cur, c.id = pc.id) ∨ (∃ c ∈ cur, c.name = pc.name))
    (hr : ∀ pr ∈ (parseBackupL content).2, ∃ r ∈ curRecs,
        isDupRec (resolveTarget cur pr.circleName) pr r = true) :
    (runImport gen content cur curRecs).stagedCircles = [] ∧
    (runImport gen content cur curRecs).newRecords = [] ∧
    (runImport gen content cur curRecs).newCirclesCount = 0 ∧
    cur ++ (runImport gen content cur curRecs).stagedCircles = cur ∧
    curRecs ++ (runImport gen content cur curRecs).newRecords = curRecs := by
  have h1 := mergeFold_skip gen cur (parseBackupL content).1 0 0 hc
  have h2 := recordFold_skip gen cur curRecs (parseBackupL content).2 0 0 hr
  simp only [runImport]
  rw [h1]
  dsimp only
  rw [h2]
  exact ⟨rfl, rfl, rfl, by simp, by simp⟩

/-- Closed instance of `c2_idempotent_reconciliation`: re-importing the
backup of one circle and one record into a store that already holds them
stages nothing. -/
theorem c2_idempotent_reconciliation_witness :
    (runImport (fun _ => "g") c2content c2cur c2recs).stagedCircles = [] ∧
    (runImport (fun _ => "g") c2content c2cur c2recs).newRecords = [] := by
  have h := c2_idempotent_reconciliation (fun _ => "g") c2content c2cur c2recs
    (by decide) (by decide)
  exact ⟨h.1, h.2.1⟩

/- ### Base lemmas about whitespace skipping and trimming -/

/-- Dropping while `p` skips a fully-`p` prefix entirely. -/
theorem dropWhile_all_append (p : Char → Bool) (A B : List Char)
    (hA : ∀ c ∈ A, p c = true) : (A ++ B).dropWhile p = B.dropWhile p := by
  induction A with
  | nil => rfl
  | cons c r ih =>
    have hc := hA c (List.mem_cons_self c r)
    simp only [List.cons_append, List.dropWhile_cons, hc, if_true]
    exact ih (fun c' h' => hA c' (List.mem_cons_of_mem _ h'))

/-- Dropping while `p` over `A ++ B` stays inside `A` when `A` has a
non-`p` element, and exposes such an element at the head. -/
theorem dropWhile_ex_append (p : Char → Bool) (A B : List Char)
    (h : ∃ c ∈ A, p c = false) :
    (A ++ B).dropWhile p = A.dropWhile p ++ B ∧
    ∃ c cs, A.dropWhile p = c :: cs ∧ p c = false ∧ c ∈ A := by
  induction A with
  | nil =>
    obtain ⟨c, hc, _⟩ := h
    exact absurd hc (List.not_mem_nil c)
  | cons c r ih =>
    by_cases hc : p c
    · have h' : ∃ c' ∈ r, p c' = false := by
        obtain ⟨c', hm, hp⟩ := h
        rcases List.mem_cons.mp hm with he | hm'
        · subst he
          rw [hc] at hp
          cases hp
        · exact ⟨c', hm', hp⟩
      obtain ⟨h1, c', cs, h2, h3, h4⟩ := ih h'
      refine ⟨?_, c', cs, ?_, h3, List.mem_cons_of_mem _ h4⟩
      · simp only [List.cons_append, List.dropWhile_cons, hc, if_true]
        exact h1
      · simp only [List.dropWhile_cons, hc, if_true]
        exact h2
    · have hc' : p c = false := by
        cases hpc : p c
        · rfl
        · exact absurd hpc hc
      refine ⟨?_, c, r, ?_, hc', List.mem_cons_self c r⟩
      · simp [List.dropWhile_cons, hc']
      · simp [List.dropWhile_cons, hc']

/-- Trim stability splits into front and back stability. -/
theorem jsTrim_stable_iff (l : List Char) :
    jsTrimL l = l ↔
      l.dropWhile jsWsChar = l ∧ l.reverse.dropWhile jsWsChar = l.reverse := by
  constructor
  · intro h
    have e : jsTrimL l = ((l.dropWhile jsWsChar).reverse.dropWhile jsWsChar).reverse := rfl
    have hsub1 : List.Sublist (l.dropWhile jsWsChar) l := List.dropWhile_sublist _
    have hlen2 : (jsTrimL l).length ≤ (l.dropWhile jsWsChar).length := by
      rw [e, List.length_reverse]
      exact le_trans ((List.dropWhile_sublist _).length_le)
        (by rw [List.length_reverse])
    have hlen : l.length ≤ (l.dropWhile jsWsChar).length := by
      have := hlen2
      rw [h] at this
      exact this
    have h1 : l.dropWhile jsWsChar = l :=
      hsub1.eq_of_length (le_antisymm hsub1.length_le hlen)
    refine ⟨h1, ?_⟩
    have h2' : jsTrimL l = (l.reverse.dropWhile jsWsChar).reverse := by
      show ((l.dropWhile jsWsChar).reverse.dropWhile jsWsChar).reverse = _
      rw [h1]
    have h2 : ((l.reverse.dropWhile jsWsChar).reverse : List Char) = l := by
      rw [← h2', h]
    have := congrArg List.reverse h2
    rwa [List.reverse_reverse] at this
  · intro ⟨h1, h2⟩
    show ((l.dropWhile jsWsChar).reverse.dropWhile jsWsChar).reverse = l
    rw [h1, h2, List.reverse_reverse]

/-- A trim-stable nonempty list starts with a non-whitespace char. -/
theorem head_not_ws_of_stable (l : List Char) (c : Char) (r : List Char)
    (h : jsTrimL l = l) (he : l = c :: r) : jsWsChar c = false := by
  have h1 := ((jsTrim_stable_iff l).mp h).1
  subst he
  cases hc : jsWsChar c
  · rfl
  · rw [List.dropWhile_cons, hc, if_pos rfl] at h1
    have := congrArg List.length h1
    have hle := (List.dropWhile_sublist (l := r) jsWsChar).length_le
    simp at this
    omega

/-- Every proper suffix of a trim-stable list still holds a
non-whitespace char (the last one). -/
theorem exists_not_ws_drop (l : List Char) (h : jsTrimL l = l) (i : Nat)
    (hi : i < l.length) : ∃ c ∈ l.drop i, jsWsChar c = false := by
  by_contra hcon
  push_neg at hcon
  have hall : ∀ c ∈ (l.drop i).reverse, jsWsChar c = true := by
    intro c hc
    have := hcon c (List.mem_reverse.mp hc)
    cases hx : jsWsChar c
    · exact absurd hx this
    · rfl
  have h2 := ((jsTrim_stable_iff l).mp h).2
  have hsplit : l.reverse = (l.drop i).reverse ++ (l.take i).reverse := by
    rw [← List.reverse_append, List.take_append_drop]
  rw [hsplit, dropWhile_all_append _ _ _ hall] at h2
  have hlen := congrArg List.length h2
  have hle := (List.dropWhile_sublist (l := (l.take i).reverse) jsWsChar).length_le
  simp only [List.length_reverse, List.length_append, List.length_take,
    List.length_drop] at hlen hle
  omega

/-- Front and back non-whitespace heads give trim stability. -/
theorem trim_stable_of (l : List Char)
    (h1 : l.dropWhile jsWsChar = l)
    (h2 : l.reverse.dropWhile jsWsChar = l.reverse) : jsTrimL l = l := by
  show ((l.dropWhile jsWsChar).reverse.dropWhile jsWsChar).reverse = l
  rw [h1, h2, List.reverse_reverse]

/-- Skipping whitespace stops at a non-whitespace head. -/
theorem dropWhile_cons_head (p : Char → Bool) (c : Char) (l : List Char)
    (h : p c = false) : (c :: l).dropWhile p = c :: l := by
  simp [List.dropWhile_cons, h]

/- ### Lazy-group matcher lemmas -/

/-- Unfolding lemma for one lazy-group step. -/
theorem lazyDotGo_cons {α : Type} (k : List Char → List Char → Option α)
    (acc : List Char) (c : Char) (rest : List Char) :
    lazyDotGo k acc (c :: rest) =
      if dotOk c then
        match k (acc ++ [c]) rest with
        | some a => some a
        | none => lazyDotGo k (acc ++ [c]) rest
      else none := by
  rw [lazyDotGo]
  rfl

/-- First-success characterization of the lazy group: if every shorter
split fails and the split at `g` succeeds, the lazy group returns it. -/
theorem lazyDotGo_spec {α : Type} (k : List Char → List Char → Option α)
    (g : List Char) :
    ∀ (acc r : List Char) (a : α), g ≠ [] → (∀ c ∈ g, dotOk c = true) →
      (∀ j, 0 < j → j < g.length →
        k (acc ++ g.take j) (g.drop j ++ r) = none) →
      k (acc ++ g) r = some a →
      lazyDotGo k acc (g ++ r) = some a := by
  induction g with
  | nil => intro acc r a hne _ _ _; exact absurd rfl hne
  | cons c g ih =>
    intro acc r a _ hdot hnone hk
    have hc : dotOk c = true := hdot c (List.mem_cons_self c g)
    cases g with
    | nil =>
      rw [List.cons_append, List.nil_append, lazyDotGo_cons, if_pos hc, hk]
    | cons c2 g2 =>
      have hfail : k (acc ++ [c]) ((c2 :: g2) ++ r) = none := by
        have := hnone 1 (by omega) (by simp only [List.length_cons]; omega)
        simpa using this
      rw [List.cons_append, lazyDotGo_cons, if_pos hc, hfail]
      show lazyDotGo k (acc ++ [c]) ((c2 :: g2) ++ r) = some a
      refine ih (acc ++ [c]) r a (by simp)
        (fun c' h' => hdot c' (List.mem_cons_of_mem _ h'))
        (fun j hj hjl => ?_)
        (by simpa [List.append_assoc] using hk)
      have := hnone (j + 1) (by omega)
        (by simp only [List.length_cons] at hjl ⊢; omega)
      simpa [List.append_assoc] using this

/-- Soundness of the lazy group: a success decomposes the input. -/
theorem lazyDotGo_sound {α : Type} (k : List Char → List Char → Option α) :
    ∀ (l acc : List Char) (a : α), lazyDotGo k acc l = some a →
      ∃ g rest, l = g ++ rest ∧ g ≠ [] ∧ (∀ c ∈ g, dotOk c = true) ∧
        k (acc ++ g) rest = some a := by
  intro l
  induction l with
  | nil => intro acc a h; cases h
  | cons c r ih =>
    intro acc a h
    unfold lazyDotGo at h
    by_cases hc : dotOk c
    · rw [if_pos hc] at h
      cases hk : k (acc ++ [c]) r with
      | some b =>
        rw [hk] at h
        cases h
        exact ⟨[c], r, rfl, by simp, by simpa using hc, hk⟩
      | none =>
        rw [hk] at h
        obtain ⟨g, rest, he, hne, hdot, hk2⟩ := ih (acc ++ [c]) a h
        refine ⟨c :: g, rest, by simp [he], by simp, ?_, ?_⟩
        · intro c' hc'
          rcases List.mem_cons.mp hc' with he' | hm
          · subst he'; exact hc
          · exact hdot c' hm
        · simpa [List.append_assoc] using hk2
    · rw [if_neg hc] at h
      cases h

/-- Soundness of the whitespace-backtracking wrapper. -/
theorem wsLazyGo_sound {α : Type} (k : List Char → List Char → Option α)
    (l : List Char) :
    ∀ (n : Nat) (a : α), wsLazyGo k l n = some a →
      ∃ m, lazyDot k (l.drop m) = some a := by
  intro n
  induction n with
  | zero => intro a h; exact ⟨0, by simpa using h⟩
  | succ n ih =>
    intro a h
    unfold wsLazyGo at h
    cases hk : lazyDot k (l.drop (n + 1)) with
    | some b =>
      rw [hk] at h
      cases h
      exact ⟨n + 1, hk⟩
    | none =>
      rw [hk] at h
      exact ih a h

/-- The wrapper succeeds immediately when the maximal-whitespace drop
succeeds. -/
theorem wsLazy_of_max {α : Type} (k : List Char → List Char → Option α)
    (l : List Char) (a : α)
    (h : lazyDot k (l.drop ((l.takeWhile jsWsChar).length)) = some a) :
    wsLazy k l = some a := by
  unfold wsLazy
  cases hm : (l.takeWhile jsWsChar).length with
  | zero =>
    rw [hm] at h
    simpa [wsLazyGo] using h
  | succ n =>
    rw [hm] at h
    simp [wsLazyGo, h]

/- ### Digit-run and literal-prefix lemmas -/

/-- `takeWhile`/`dropWhile` on an all-satisfying list followed by a
failing char. -/
theorem takeWhile_all_append (p : Char → Bool) (l : List Char) (c : Char)
    (X : List Char) (hl : ∀ x ∈ l, p x = true) (hc : p c = false) :
    (l ++ c :: X).takeWhile p = l ∧ (l ++ c :: X).dropWhile p = c :: X := by
  induction l with
  | nil => simp [List.takeWhile_cons, List.dropWhile_cons, hc]
  | cons x r ih =>
    have hx := hl x (List.mem_cons_self x r)
    obtain ⟨h1, h2⟩ := ih (fun x' h' => hl x' (List.mem_cons_of_mem _ h'))
    constructor
    · simp only [List.cons_append, List.takeWhile_cons, hx, if_true, h1]
    · simp only [List.cons_append, List.dropWhile_cons, hx, if_true, h2]

/-- A fully-consumed digit run: characterize `takeDigits1 l = some (n, [])`. -/
theorem takeDigits1_full (l : List Char) (n : Nat)
    (h : takeDigits1 l = some (n, [])) :
    l ≠ [] ∧ (∀ c ∈ l, isDigitC c = true) ∧
      n = l.foldl (fun a c => a * 10 + (c.toNat - 48)) 0 := by
  unfold takeDigits1 at h
  by_cases he : (l.takeWhile isDigitC).isEmpty
  · rw [if_pos he] at h
    cases h
  · rw [if_neg he] at h
    injection h with h'
    injection h' with h1 h2
    have hdrop : l.dropWhile isDigitC = [] := h2
    have hall : ∀ c ∈ l, isDigitC c = true := by
      intro c hc
      exact List.dropWhile_eq_nil_iff.mp hdrop c hc
    have htake : l.takeWhile isDigitC = l := by
      have := List.takeWhile_append_dropWhile (p := isDigitC) (l := l)
      rw [hdrop, List.append_nil] at this
      exact this
    refine ⟨?_, hall, ?_⟩
    · intro hnil
      rw [hnil] at he
      exact he rfl
    · rw [← h1, htake]

/-- Appending a non-digit tail to a fully-consumed digit run. -/
theorem takeDigits1_append (l : List Char) (n : Nat) (c : Char)
    (X : List Char) (h : takeDigits1 l = some (n, []))
    (hc : isDigitC c = false) :
    takeDigits1 (l ++ c :: X) = some (n, c :: X) := by
  obtain ⟨hne, hall, hval⟩ := takeDigits1_full l n h
  obtain ⟨ht, hd⟩ := takeWhile_all_append isDigitC l c X hall hc
  unfold takeDigits1
  rw [ht, hd]
  have hne' : l.isEmpty = false := by
    cases l
    · exact absurd rfl hne
    · rfl
  rw [if_neg (by simp [hne'])]
  rw [hval]

/-- Unfolding lemma for `takeSignDigits` on a cons. -/
theorem takeSignDigits_cons (c : Char) (r : List Char) :
    takeSignDigits (c :: r) =
      if c = '+' then (takeDigits1 r).map (fun p => ((p.1 : Int), p.2))
      else if c = '-' then (takeDigits1 r).map (fun p => (-(p.1 : Int), p.2))
      else (takeDigits1 (c :: r)).map (fun p => ((p.1 : Int), p.2)) := rfl

/-- A digit is not whitespace. -/
theorem not_ws_of_digit (c : Char) (h : isDigitC c = true) :
    jsWsChar c = false := by
  cases hx : jsWsChar c
  · rfl
  · exfalso
    unfold jsWsChar at hx
    simp only [Bool.or_eq_true, decide_eq_true_eq] at hx
    rcases hx with ((((((((h1|h1)|h1)|h1)|h1)|h1)|h1)|h1)|h1) <;> subst h1 <;>
      exact absurd h (by decide)

/-- `checkSignedDigits` transported across a non-digit continuation. -/
theorem takeSignDigits_append (as : List Char) (v : Int) (c : Char)
    (X : List Char) (h : checkSignedDigits as = some v)
    (hc : isDigitC c = false) :
    takeSignDigits (as ++ c :: X) = some (v, c :: X) := by
  unfold checkSignedDigits at h
  cases hts : takeSignDigits as with
  | none => rw [hts] at h; cases h
  | some p =>
    rw [hts] at h
    simp only [Option.some_bind] at h
    by_cases hp2 : p.2.isEmpty
    · rw [if_pos hp2] at h
      injection h with hv
      have hrest : p.2 = [] := by
        cases hq : p.2
        · rfl
        · rw [hq] at hp2; cases hp2
      cases as with
      | nil => cases hts
      | cons c0 r =>
        rw [takeSignDigits_cons] at hts
        rw [List.cons_append, takeSignDigits_cons]
        by_cases h0 : c0 = '+'
        · rw [if_pos h0] at hts ⊢
          cases hd : takeDigits1 r with
          | none => rw [hd] at hts; cases hts
          | some q =>
            rw [hd, Option.map_some'] at hts
            injection hts with hts'
            have hq1 : (q.1 : Int) = p.1 := by rw [← hts']
            have hq2 : q.2 = p.2 := by rw [← hts']
            have hfull : takeDigits1 r = some (q.1, []) := by
              rw [hd, ← hrest, ← hq2]
            rw [takeDigits1_append r q.1 c X hfull hc, Option.map_some']
            rw [hq1, hv]
        · rw [if_neg h0] at hts ⊢
          by_cases h1 : c0 = '-'
          · rw [if_pos h1] at hts ⊢
            cases hd : takeDigits1 r with
            | none => rw [hd] at hts; cases hts
            | some q =>
              rw [hd, Option.map_some'] at hts
              injection hts with hts'
              have hq1 : (-(q.1 : Int)) = p.1 := by rw [← hts']
              have hq2 : q.2 = p.2 := by rw [← hts']
              have hfull : takeDigits1 r = some (q.1, []) := by
                rw [hd, ← hrest, ← hq2]
              rw [takeDigits1_append r q.1 c X hfull hc, Option.map_some']
              rw [hq1, hv]
          · rw [if_neg h1] at hts ⊢
            cases hd : takeDigits1 (c0 :: r) with
            | none => rw [hd] at hts; cases hts
            | some q =>
              rw [hd, Option.map_some'] at hts
              injection hts with hts'
              have hq1 : (q.1 : Int) = p.1 := by rw [← hts']
              have hq2 : q.2 = p.2 := by rw [← hts']
              have hfull : takeDigits1 (c0 :: r) = some (q.1, []) := by
                rw [hd, ← hrest, ← hq2]
              have h2 := takeDigits1_append (c0 :: r) q.1 c X hfull hc
              rw [List.cons_append] at h2
              rw [h2, Option.map_some']
              rw [hq1, hv]
    · rw [if_neg hp2] at h
      cases h

/-- The head of a signed digit run is never whitespace. -/
theorem checkSignedDigits_head (as : List Char) (v : Int)
    (h : checkSignedDigits as = some v) :
    ∃ c r, as = c :: r ∧ jsWsChar c = false := by
  cases as with
  | nil =>
    unfold checkSignedDigits takeSignDigits at h
    cases h
  | cons c r =>
    refine ⟨c, r, rfl, ?_⟩
    unfold checkSignedDigits at h
    rw [takeSignDigits_cons] at h
    by_cases h0 : c = '+'
    · subst h0; rfl
    · rw [if_neg h0] at h
      by_cases h1 : c = '-'
      · subst h1; rfl
      · rw [if_neg h1] at h
        cases hd : takeDigits1 (c :: r) with
        | none => rw [hd] at h; cases h
        | some q =>
          unfold takeDigits1 at hd
          by_cases he : ((c :: r).takeWhile isDigitC).isEmpty
          · rw [if_pos he] at hd; cases hd
          · have hc : isDigitC c = true := by
              by_cases hx : isDigitC c
              · exact hx
              · exfalso
                apply he
                simp [List.takeWhile_cons, hx]
            exact not_ws_of_digit c hc

/- ### Literal prefixes and field failure -/

theorem expectPfx_self (p X : List Char) : expectPfx p (p ++ X) = some X := by
  induction p with
  | nil => rfl
  | cons c r ih => simp [expectPfx, ih]

theorem expectPfx_sound (p : List Char) :
    ∀ l r, expectPfx p l = some r → l = p ++ r := by
  induction p with
  | nil => intro l r h; cases h; rfl
  | cons c q ih =>
    intro l r h
    cases l with
    | nil => cases h
    | cons x m =>
      unfold expectPfx at h
      by_cases hx : x = c
      · rw [if_pos hx] at h
        rw [hx, ih m r h]
        rfl
      · rw [if_neg hx] at h
        cases h

theorem expectCh_sound (c : Char) (l r : List Char)
    (h : expectCh c l = some r) : l = c :: r := by
  cases l with
  | nil => cases h
  | cons x m =>
    simp only [expectCh] at h
    by_cases hx : x = c
    · rw [if_pos hx] at h
      cases h
      rw [hx]
    · rw [if_neg hx] at h
      cases h

/-- The note tail fails as soon as its leading `\s*\|` fails. -/
theorem recNoteTail_fail (g r : List Char)
    (h : expectCh '|' (dropWsL r) = none) : recNoteTail g r = none := by
  unfold recNoteTail
  rw [h]

/-- The post-date continuation fails as soon as its leading `\s*\|`
fails. -/
theorem recAfterDate_fail (r : List Char)
    (h : expectCh '|' (dropWsL r) = none) : recAfterDate r = none := by
  unfold recAfterDate
  rw [h]

/-- Inside a pipe-free trim-stable field, no proper split can reach the
`\s*\|` of the grammar: the first non-whitespace char is a field char,
not `|`. -/
theorem fieldFail (f X : List Char) (hstable : jsTrimL f = f)
    (hpipe : '|' ∉ f) (j : Nat) (hj : j < f.length) :
    expectCh '|' (dropWsL (f.drop j ++ X)) = none := by
  obtain ⟨hdw, c, cs, hdc, hcp, hcm⟩ :=
    dropWhile_ex_append jsWsChar (f.drop j) X (exists_not_ws_drop f hstable j hj)
  unfold dropWsL
  rw [hdw, hdc]
  have hcpipe : ¬ c = '|' := by
    intro he
    exact hpipe (List.drop_subset j f (he ▸ hcm))
  simp [expectCh, hcpipe]

/- ### Completeness of the record-line grammar on well-formed lines -/

/-- The note tail succeeds on the exact separator followed by a
`.`-matchable note. -/
theorem recNoteTail_complete (g3 t : List Char) (ht : t.all dotOk = true) :
    recNoteTail g3 (' ' :: '|' :: ' ' :: (beizhuL ++ t)) = some (g3, t) := by
  have h1 : dropWsL (' ' :: '|' :: ' ' :: (beizhuL ++ t)) =
      '|' :: ' ' :: (beizhuL ++ t) := rfl
  have h3 : dropWsL (' ' :: (beizhuL ++ t)) = beizhuL ++ t := rfl
  have h4 : expectPfx beizhuL (beizhuL ++ t) = some t := expectPfx_self _ _
  unfold recNoteTail
  rw [h1]
  simp only [expectCh, if_pos rfl, h3, h4, ht, if_true]

/-- After a trim-stable nonempty field, one leading space skips to the
field head. -/
theorem dropWs_space_field (f X : List Char) (hne : f ≠ [])
    (hstable : jsTrimL f = f) : dropWsL (' ' :: (f ++ X)) = f ++ X := by
  cases hf : f with
  | nil => exact absurd hf hne
  | cons c r =>
    have hc : jsWsChar c = false := head_not_ws_of_stable f c r hstable hf
    show (' ' :: (c :: r ++ X)).dropWhile jsWsChar = c :: r ++ X
    rw [List.dropWhile_cons]
    simp only [show jsWsChar ' ' = true from rfl, if_true]
    exact dropWhile_cons_head jsWsChar c (r ++ X) hc

/-- A trim-stable nonempty list is a cons with non-whitespace head. -/
theorem stable_head_cons (l : List Char) (hne : l ≠ []) (hst : jsTrimL l = l) :
    ∃ c r, l = c :: r ∧ jsWsChar c = false := by
  cases l with
  | nil => exact absurd rfl hne
  | cons c r => exact ⟨c, r, rfl, head_not_ws_of_stable (c :: r) c r hst rfl⟩

/-- The continuation after the date capture succeeds on the remainder of
a well-formed record line, capturing amount, circle and note. -/
theorem recAfterDate_complete (as n t : List Char) (v : Int)
    (has : checkSignedDigits as = some v) (hn : fieldOkL n)
    (ht : t.all dotOk = true) :
    recAfterDate (' ' :: '|' :: ' ' ::
        (as ++ ' ' :: '|' :: ' ' :: (n ++ ' ' :: '|' :: ' ' :: (beizhuL ++ t)))) =
      some (v, n, t) := by
  obtain ⟨a0, as', has0, ha0⟩ := checkSignedDigits_head as v has
  have h1 : dropWsL (' ' :: '|' :: ' ' ::
      (as ++ ' ' :: '|' :: ' ' :: (n ++ ' ' :: '|' :: ' ' :: (beizhuL ++ t)))) =
      '|' :: ' ' ::
        (as ++ ' ' :: '|' :: ' ' :: (n ++ ' ' :: '|' :: ' ' :: (beizhuL ++ t))) := rfl
  have h3 : dropWsL (' ' ::
      (as ++ ' ' :: '|' :: ' ' :: (n ++ ' ' :: '|' :: ' ' :: (beizhuL ++ t)))) =
      as ++ ' ' :: '|' :: ' ' :: (n ++ ' ' :: '|' :: ' ' :: (beizhuL ++ t)) := by
    show List.dropWhile jsWsChar _ = _
    rw [List.dropWhile_cons]
    simp only [show jsWsChar ' ' = true from rfl, if_true]
    rw [has0, List.cons_append]
    exact dropWhile_cons_head jsWsChar a0 _ ha0
  have h4 : takeSignDigits
      (as ++ ' ' :: '|' :: ' ' :: (n ++ ' ' :: '|' :: ' ' :: (beizhuL ++ t))) =
      some (v, ' ' :: '|' :: ' ' :: (n ++ ' ' :: '|' :: ' ' :: (beizhuL ++ t))) :=
    takeSignDigits_append as v ' ' _ has rfl
  have h5 : dropWsL (' ' :: '|' :: ' ' :: (n ++ ' ' :: '|' :: ' ' :: (beizhuL ++ t))) =
      '|' :: ' ' :: (n ++ ' ' :: '|' :: ' ' :: (beizhuL ++ t)) := rfl
  have h7 : lazyDot (fun g3 r4 =>
      (recNoteTail g3 r4).map (fun p => (v, p.1, p.2)))
      (n ++ ' ' :: '|' :: ' ' :: (beizhuL ++ t)) = some (v, n, t) := by
    unfold lazyDot
    have := lazyDotGo_spec (g := n)
      (fun g3 r4 => (recNoteTail g3 r4).map (fun p => (v, p.1, p.2)))
      [] (' ' :: '|' :: ' ' :: (beizhuL ++ t)) (v, n, t) hn.1 hn.2.2.2
      (fun j hj hjl => ?_) ?_
    · exact this
    · simp only [recNoteTail_fail _ _ (fieldFail n _ hn.2.1 hn.2.2.1 j hjl),
        Option.map_none']
    · simp only [List.nil_append, recNoteTail_complete n t ht,
        Option.map_some']
  have h8 : wsLazy (fun g3 r4 =>
      (recNoteTail g3 r4).map (fun p => (v, p.1, p.2)))
      (' ' :: (n ++ ' ' :: '|' :: ' ' :: (beizhuL ++ t))) = some (v, n, t) := by
    apply wsLazy_of_max
    have hw : ((' ' :: (n ++ ' ' :: '|' :: ' ' :: (beizhuL ++ t))).takeWhile
        jsWsChar).length = 1 := by
      obtain ⟨n0, n', hn0, hwn0⟩ := stable_head_cons n hn.1 hn.2.1
      rw [List.takeWhile_cons]
      simp only [show jsWsChar ' ' = true from rfl, if_true]
      rw [hn0, List.cons_append, List.takeWhile_cons, hwn0]
      rfl
    rw [hw]
    simpa using h7
  have he1 : expectCh '|' (dropWsL (' ' :: '|' :: ' ' ::
      (as ++ ' ' :: '|' :: ' ' :: (n ++ ' ' :: '|' :: ' ' :: (beizhuL ++ t))))) =
      some (' ' ::
        (as ++ ' ' :: '|' :: ' ' :: (n ++ ' ' :: '|' :: ' ' :: (beizhuL ++ t)))) := by
    rw [h1]
    rfl
  have he2 : expectCh '|' (dropWsL (' ' :: '|' :: ' ' ::
      (n ++ ' ' :: '|' :: ' ' :: (beizhuL ++ t)))) =
      some (' ' :: (n ++ ' ' :: '|' :: ' ' :: (beizhuL ++ t))) := by
    rw [h5]
    rfl
  unfold recAfterDate
  simp only [he1, h3, h4, he2]
  exact h8

/-- Completeness: a record line built from a trim-stable pipe-free date,
a signed integer amount, a trim-stable pipe-free circle name and a
`.`-matchable note parses to exactly those four captures. -/
theorem matchRecordLine_complete (d as n t : List Char) (v : Int)
    (hd : fieldOkL d) (hn : fieldOkL n) (has : checkSignedDigits as = some v)
    (ht : t.all dotOk = true) :
    matchRecordLineL (d ++ ' ' :: '|' :: ' ' ::
        (as ++ ' ' :: '|' :: ' ' :: (n ++ ' ' :: '|' :: ' ' :: (beizhuL ++ t)))) =
      some (d, v, n, t) := by
  unfold matchRecordLineL lazyDot
  have := lazyDotGo_spec (g := d)
    (fun g1 r => (recAfterDate r).map (fun p => (g1, p)))
    [] (' ' :: '|' :: ' ' ::
      (as ++ ' ' :: '|' :: ' ' :: (n ++ ' ' :: '|' :: ' ' :: (beizhuL ++ t))))
    (d, v, n, t) hd.1 hd.2.2.2
    (fun j hj hjl => ?_) ?_
  · exact this
  · simp only [recAfterDate_fail _ (fieldFail d _ hd.2.1 hd.2.2.1 j hjl),
      Option.map_none']
  · simp only [List.nil_append, recAfterDate_complete as n t v has hn ht,
      Option.map_some']

/- ### Soundness of the record-line grammar -/

theorem takeDigits1_sound (l : List Char) (n : Nat) (rest : List Char)
    (h : takeDigits1 l = some (n, rest)) :
    ∃ ds, l = ds ++ rest ∧ ds ≠ [] ∧ ∀ c ∈ ds, isDigitC c = true := by
  unfold takeDigits1 at h
  by_cases he : (l.takeWhile isDigitC).isEmpty
  · rw [if_pos he] at h
    cases h
  · rw [if_neg he] at h
    injection h with h'
    rw [Prod.mk.injEq] at h'
    refine ⟨l.takeWhile isDigitC, ?_, ?_, ?_⟩
    · rw [← h'.2]
      exact (List.takeWhile_append_dropWhile _ _).symm
    · intro hnil
      rw [hnil] at he
      exact he rfl
    · intro c hc
      exact List.mem_takeWhile_imp hc

theorem takeSignDigits_sound (m : List Char) (v : Int) (rest : List Char)
    (h : takeSignDigits m = some (v, rest)) :
    ∃ sd, m = sd ++ rest ∧ sd ≠ [] ∧
      ∀ c ∈ sd, c = '+' ∨ c = '-' ∨ isDigitC c = true := by
  cases m with
  | nil => cases h
  | cons c0 r =>
    rw [takeSignDigits_cons] at h
    by_cases h0 : c0 = '+'
    · rw [if_pos h0] at h
      cases hd : takeDigits1 r with
      | none => rw [hd] at h; cases h
      | some q =>
        rw [hd, Option.map_some'] at h
        injection h with h'
        rw [Prod.mk.injEq] at h'
        obtain ⟨ds, hds, hdne, hdall⟩ := takeDigits1_sound r q.1 q.2 (by rw [hd])
        refine ⟨c0 :: ds, ?_, by simp, ?_⟩
        · rw [← h'.2, hds]
          rfl
        · intro c hc
          rcases List.mem_cons.mp hc with he | hm
          · subst he; exact Or.inl h0
          · exact Or.inr (Or.inr (hdall c hm))
    · rw [if_neg h0] at h
      by_cases h1 : c0 = '-'
      · rw [if_pos h1] at h
        cases hd : takeDigits1 r with
        | none => rw [hd] at h; cases h
        | some q =>
          rw [hd, Option.map_some'] at h
          injection h with h'
          rw [Prod.mk.injEq] at h'
          obtain ⟨ds, hds, hdne, hdall⟩ := takeDigits1_sound r q.1 q.2 (by rw [hd])
          refine ⟨c0 :: ds, ?_, by simp, ?_⟩
          · rw [← h'.2, hds]
            rfl
          · intro c hc
            rcases List.mem_cons.mp hc with he | hm
            · subst he; exact Or.inr (Or.inl h1)
            · exact Or.inr (Or.inr (hdall c hm))
      · rw [if_neg h1] at h
        cases hd : takeDigits1 (c0 :: r) with
        | none => rw [hd] at h; cases h
        | some q =>
          rw [hd, Option.map_some'] at h
          injection h with h'
          rw [Prod.mk.injEq] at h'
          obtain ⟨ds, hds, hdne, hdall⟩ :=
            takeDigits1_sound (c0 :: r) q.1 q.2 (by rw [hd])
          refine ⟨ds, ?_, hdne, fun c hc => Or.inr (Or.inr (hdall c hc))⟩
          rw [← h'.2]
          exact hds

/-- Soundness of a record-line match: the line decomposes around two
consecutive pipes whose in-between content is whitespace/sign/digits
only, with a further pipe later on. -/
theorem matchRecord_sound (l : List Char)
    (res : List Char × Int × List Char × List Char)
    (h : matchRecordLineL l = some res) :
    ∃ pre mid post, l = pre ++ '|' :: (mid ++ '|' :: post) ∧
      (∀ c ∈ mid, jsWsChar c = true ∨ c = '+' ∨ c = '-' ∨ isDigitC c = true) ∧
      '|' ∈ post := by
  unfold matchRecordLineL lazyDot at h
  obtain ⟨g1, r, hl, _, _, hk⟩ := lazyDotGo_sound _ l [] res h
  replace hk : (recAfterDate r).map (fun p => (([] ++ g1 : List Char), p)) =
      some res := hk
  cases hra : recAfterDate r with
  | none => rw [hra] at hk; simp at hk
  | some p =>
    unfold recAfterDate at hra
    cases he1 : expectCh '|' (dropWsL r) with
    | none =>
      simp only [he1] at hra
      exact Option.noConfusion hra
    | some r1 =>
      simp only [he1] at hra
      cases hs : takeSignDigits (dropWsL r1) with
      | none =>
        simp only [hs] at hra
        exact Option.noConfusion hra
      | some q =>
        obtain ⟨v, r2⟩ := q
        simp only [hs] at hra
        cases he2 : expectCh '|' (dropWsL r2) with
        | none =>
          simp only [he2] at hra
          exact Option.noConfusion hra
        | some r3 =>
          simp only [he2] at hra
          obtain ⟨m, hm⟩ := wsLazyGo_sound _ r3 _ p hra
          obtain ⟨g3, rest3, hr3, _, _, hk3⟩ := lazyDotGo_sound _ (r3.drop m) [] p hm
          have hpipe3 : '|' ∈ rest3 := by
            cases hnt : recNoteTail ([] ++ g3) rest3 with
            | none => rw [hnt] at hk3; cases hk3
            | some w =>
              unfold recNoteTail at hnt
              cases he3 : expectCh '|' (dropWsL rest3) with
              | none => rw [he3] at hnt; cases hnt
              | some r5 =>
                have hds := expectCh_sound '|' (dropWsL rest3) r5 he3
                have hsub : dropWsL rest3 ⊆ rest3 := by
                  unfold dropWsL
                  exact (List.dropWhile_sublist _).subset
                apply hsub
                rw [hds]
                exact List.mem_cons_self _ _
          have hd1 := expectCh_sound '|' (dropWsL r) r1 he1
          have hd2 := expectCh_sound '|' (dropWsL r2) r3 he2
          obtain ⟨sd, hsd, hsdne, hsdall⟩ := takeSignDigits_sound _ v r2 hs
          refine ⟨g1 ++ r.takeWhile jsWsChar,
            r1.takeWhile jsWsChar ++ sd ++ r2.takeWhile jsWsChar, r3, ?_, ?_, ?_⟩
          · have e1 : r = r.takeWhile jsWsChar ++ ('|' :: r1) := by
              rw [← hd1]
              unfold dropWsL
              exact (List.takeWhile_append_dropWhile _ _).symm
            have e2 : r1 = r1.takeWhile jsWsChar ++ (sd ++ r2) := by
              rw [← hsd]
              unfold dropWsL
              exact (List.takeWhile_append_dropWhile _ _).symm
            have e3 : r2 = r2.takeWhile jsWsChar ++ ('|' :: r3) := by
              rw [← hd2]
              unfold dropWsL
              exact (List.takeWhile_append_dropWhile _ _).symm
            rw [hl]
            conv_lhs => rw [e1]
            conv_lhs => rw [e2]
            conv_lhs => rw [e3]
            simp [List.append_assoc]
          · intro c hc
            rcases List.mem_append.mp hc with hc' | hc'
            · rcases List.mem_append.mp hc' with hc'' | hc''
              · exact Or.inl (List.mem_takeWhile_imp hc'')
              · exact Or.inr (hsdall c hc'')
            · exact Or.inl (List.mem_takeWhile_imp hc')
          · have : rest3 ⊆ r3 := by
              intro x hx
              have h1 : x ∈ r3.drop m := by
                rw [hr3]
                exact List.mem_append.mpr (Or.inr hx)
              exact List.drop_subset m r3 h1
            exact this hpipe3

/- ### No-match theorem for non-integer amount fields -/

/-- Splitting at the first pipe is unique. -/
theorem pipe_split_unique (A : List Char) :
    ∀ (B C D : List Char), '|' ∉ A → '|' ∉ C →
      A ++ '|' :: B = C ++ '|' :: D → A = C ∧ B = D := by
  induction A with
  | nil =>
    intro B C D _ hC h
    cases C with
    | nil =>
      simp only [List.nil_append] at h
      injection h with _ h2
      exact ⟨rfl, h2⟩
    | cons c C' =>
      simp only [List.nil_append, List.cons_append] at h
      injection h with h1 _
      exact absurd (h1 ▸ List.mem_cons_self c C') hC
  | cons a A' ih =>
    intro B C D hA hC h
    cases C with
    | nil =>
      simp only [List.cons_append, List.nil_append] at h
      injection h with h1 _
      exact absurd (h1 ▸ List.mem_cons_self a A') hA
    | cons c C' =>
      simp only [List.cons_append] at h
      injection h with h1 h2
      obtain ⟨he, hbd⟩ := ih B C' D
        (fun hm => hA (List.mem_cons_of_mem _ hm))
        (fun hm => hC (List.mem_cons_of_mem _ hm)) h2
      exact ⟨by rw [h1, he], hbd⟩

/-- A record line whose amount field contains a decimal point (and whose
other fields are pipe-free) never matches the record grammar: the only
pipe pair with sign/digit content between them would have to be the
first two separators, but the amount slot holds a `.`. -/
theorem recordLine_noMatch (d as n t : List Char)
    (hd : '|' ∉ d) (hn : '|' ∉ n) (ht : '|' ∉ t) (has : '|' ∉ as)
    (hdot : '.' ∈ as) :
    matchRecordLineL (d ++ ' ' :: '|' :: ' ' ::
      (as ++ ' ' :: '|' :: ' ' :: (n ++ ' ' :: '|' :: ' ' :: (beizhuL ++ t)))) =
      none := by
  cases hres : matchRecordLineL (d ++ ' ' :: '|' :: ' ' ::
      (as ++ ' ' :: '|' :: ' ' :: (n ++ ' ' :: '|' :: ' ' :: (beizhuL ++ t)))) with
  | none => rfl
  | some res =>
    exfalso
    obtain ⟨pre, mid, post, heq, hmid, hpost⟩ := matchRecord_sound _ res hres
    have hbz : beizhuL.count '|' = 0 := by decide
    have hcount : (d ++ ' ' :: '|' :: ' ' ::
        (as ++ ' ' :: '|' :: ' ' :: (n ++ ' ' :: '|' :: ' ' ::
          (beizhuL ++ t)))).count '|' = 3 := by
      simp only [List.count_append, List.count_cons, hbz,
        List.count_eq_zero.mpr hd, List.count_eq_zero.mpr has,
        List.count_eq_zero.mpr hn, List.count_eq_zero.mpr ht]
      decide
    have hmidpipe : '|' ∉ mid := by
      intro hm
      rcases hmid '|' hm with h1 | h1 | h1 | h1 <;> cases h1
    have hpostpos : 0 < post.count '|' := List.count_pos_iff.mpr hpost
    have hdecomp : (d ++ ' ' :: '|' :: ' ' ::
        (as ++ ' ' :: '|' :: ' ' :: (n ++ ' ' :: '|' :: ' ' ::
          (beizhuL ++ t)))).count '|' =
        pre.count '|' + mid.count '|' + post.count '|' + 2 := by
      rw [heq]
      simp only [List.count_append, List.count_cons]
      have : (('|' : Char) = '|') = True := by simp
      simp [this]
      omega
    have hmidzero : mid.count '|' = 0 := List.count_eq_zero.mpr hmidpipe
    have hprepipe : '|' ∉ pre := by
      intro hm
      have := List.count_pos_iff.mpr hm
      omega
    have hsplit1 : (d ++ [' ']) ++ '|' :: (' ' ::
        (as ++ ' ' :: '|' :: ' ' :: (n ++ ' ' :: '|' :: ' ' :: (beizhuL ++ t)))) =
        pre ++ '|' :: (mid ++ '|' :: post) := by
      rw [← heq]
      simp [List.append_assoc]
    have hApipe : '|' ∉ d ++ [' '] := by
      intro hm
      rcases List.mem_append.mp hm with h1 | h1
      · exact hd h1
      · rw [List.mem_singleton] at h1
        cases h1
    obtain ⟨_, hBD⟩ := pipe_split_unique (d ++ [' ']) _ pre _ hApipe hprepipe hsplit1
    have hsplit2 : (' ' :: (as ++ [' '])) ++ '|' :: (' ' ::
        (n ++ ' ' :: '|' :: ' ' :: (beizhuL ++ t))) = mid ++ '|' :: post := by
      rw [← hBD]
      simp [List.append_assoc]
    have hA2pipe : '|' ∉ ' ' :: (as ++ [' ']) := by
      intro hm
      rcases List.mem_cons.mp hm with h1 | h1
      · cases h1
      · rcases List.mem_append.mp h1 with h2 | h2
        · exact has h2
        · rw [List.mem_singleton] at h2
          cases h2
    obtain ⟨hmid_eq, _⟩ :=
      pipe_split_unique (' ' :: (as ++ [' '])) _ mid _ hA2pipe hmidpipe hsplit2
    have hdotmid : '.' ∈ mid := by
      rw [← hmid_eq]
      exact List.mem_cons_of_mem _ (List.mem_append.mpr (Or.inl hdot))
    rcases hmid '.' hdotmid with h1 | h1 | h1 | h1 <;> cases h1

/- ### Line splitting and the section scan on export output -/

theorem splitNl_no_nl (l : List Char) (h : '\n' ∉ l) : splitNlL l = [l] := by
  induction l with
  | nil => rfl
  | cons c r ih =>
    have hc : ¬ c = '\n' := fun he => h (he ▸ List.mem_cons_self c r)
    have hr := ih (fun hm => h (List.mem_cons_of_mem c hm))
    unfold splitNlL
    rw [if_neg hc, hr]

theorem splitNl_append (l rest : List Char) (h : '\n' ∉ l) :
    splitNlL (l ++ '\n' :: rest) = l :: splitNlL rest := by
  induction l with
  | nil =>
    show splitNlL ('\n' :: rest) = [] :: splitNlL rest
    simp only [splitNlL, if_true]
  | cons c r ih =>
    have hc : ¬ c = '\n' := fun he => h (he ▸ List.mem_cons_self c r)
    have hr := ih (fun hm => h (List.mem_cons_of_mem c hm))
    show splitNlL (c :: (r ++ '\n' :: rest)) = (c :: r) :: splitNlL rest
    simp only [splitNlL]
    rw [if_neg hc, hr]

theorem splitNl_join (lines : List (List Char)) :
    (∀ l ∈ lines, '\n' ∉ l) → lines ≠ [] →
      splitNlL (joinNlL lines) = lines := by
  induction lines with
  | nil => intro _ hne; exact absurd rfl hne
  | cons l ls ih =>
    intro h _
    cases ls with
    | nil => exact splitNl_no_nl l (h l (List.mem_cons_self l []))
    | cons l2 ls2 =>
      show splitNlL (l ++ '\n' :: joinNlL (l2 :: ls2)) = l :: (l2 :: ls2)
      rw [splitNl_append l _ (h l (List.mem_cons_self _ _))]
      rw [ih (fun l' hl' => h l' (List.mem_cons_of_mem _ hl')) (by simp)]

/-- Head preservation of trim on a non-whitespace-headed list. -/
theorem jsTrim_cons_head (c : Char) (l : List Char) (hc : jsWsChar c = false) :
    ∃ r, jsTrimL (c :: l) = c :: r := by
  have h1 : (c :: l).dropWhile jsWsChar = c :: l := dropWhile_cons_head _ c l hc
  show ∃ r, (((c :: l).dropWhile jsWsChar).reverse.dropWhile jsWsChar).reverse = c :: r
  rw [h1]
  have hrev : (c :: l).reverse = l.reverse ++ [c] := by simp
  rw [hrev]
  by_cases hall : ∀ x ∈ l.reverse, jsWsChar x = true
  · rw [dropWhile_all_append jsWsChar l.reverse [c] hall,
      dropWhile_cons_head jsWsChar c [] hc]
    exact ⟨[], rfl⟩
  · have hex : ∃ x ∈ l.reverse, jsWsChar x = false := by
      push_neg at hall
      obtain ⟨x, hx, hxp⟩ := hall
      exact ⟨x, hx, by simpa using hxp⟩
    obtain ⟨hda, x, xs, hdx, _, _⟩ := dropWhile_ex_append jsWsChar l.reverse [c] hex
    rw [hda, hdx]
    exact ⟨(x :: xs).reverse, by simp⟩

/-- A line headed by a non-whitespace char other than `[` is not a
section header after trimming. -/
theorem not_header_of_head (c : Char) (l : List Char)
    (hc1 : jsWsChar c = false) (hc2 : ¬ c = '[') :
    headerIs (jsTrimL (c :: l)) = false := by
  obtain ⟨r, hr⟩ := jsTrim_cons_head c l hc1
  rw [hr]
  unfold headerIs
  simp [hc2]

/-- Head characterization of a self-stable `dropWhile`. -/
theorem head_not_of_dropWhile_eq (p : Char → Bool) (c : Char) (r : List Char)
    (h : (c :: r).dropWhile p = c :: r) : p c = false := by
  cases hc : p c
  · rfl
  · rw [List.dropWhile_cons, hc, if_pos rfl] at h
    have hlen := congrArg List.length h
    have hle := (List.dropWhile_sublist (l := r) p).length_le
    simp at hlen
    omega

/-- The reverse of a trim-stable nonempty list starts with a
non-whitespace char. -/
theorem stable_rev_head (t : List Char) (hne : t ≠ []) (ht : jsTrimL t = t) :
    ∃ c r, t.reverse = c :: r ∧ jsWsChar c = false := by
  have h2 := ((jsTrim_stable_iff t).mp ht).2
  cases hr : t.reverse with
  | nil =>
    exfalso
    apply hne
    have := congrArg List.reverse hr
    simpa using this
  | cons c r =>
    rw [hr] at h2
    exact ⟨c, r, rfl, head_not_of_dropWhile_eq jsWsChar c r h2⟩

/- ### Character classes of the JS number printer -/

/-- `note.replace(/\n/g, ' ')` never leaves a newline behind. -/
theorem replaceNl_no_nl (l : List Char) : '\n' ∉ replaceNlSpace l := by
  intro hm
  unfold replaceNlSpace at hm
  obtain ⟨c, _, hc⟩ := List.mem_map.mp hm
  by_cases h : c = '\n'
  · rw [if_pos h] at hc
    exact absurd hc (by decide)
  · rw [if_neg h] at hc
    exact h hc

/-- The newline fold is the identity on newline-free notes. -/
theorem replaceNl_id (l : List Char) (h : '\n' ∉ l) : replaceNlSpace l = l := by
  induction l with
  | nil => rfl
  | cons c r ih =>
    have hc : ¬ c = '\n' := fun he => h (he ▸ List.mem_cons_self c r)
    show (if c = '\n' then ' ' else c) :: replaceNlSpace r = c :: r
    rw [if_neg hc, ih (fun hm => h (List.mem_cons_of_mem c hm))]

/-- A `.`-matchable list carries no newline. -/
theorem no_nl_of_dotOk (l : List Char) (h : ∀ c ∈ l, dotOk c = true) :
    '\n' ∉ l :=
  fun hm => absurd (h _ hm) (by decide)

/-- The digit characters `Char.ofNat (48 + m)` for `m < 10`. -/
theorem digitC_ofNat (m : Nat) (h : m < 10) :
    isDigitC (Char.ofNat (48 + m)) = true := by
  interval_cases m <;> decide

theorem natDigitsAux_class (fuel : Nat) : ∀ (n : Nat) (acc : List Char),
    (∀ c ∈ acc, isDigitC c = true) →
      ∀ c ∈ natDigitsAux fuel n acc, isDigitC c = true := by
  induction fuel with
  | zero => intro n acc hacc c hc; exact hacc c hc
  | succ f ih =>
    intro n acc hacc c hc
    unfold natDigitsAux at hc
    by_cases hn : n = 0
    · rw [if_pos hn] at hc
      exact hacc c hc
    · rw [if_neg hn] at hc
      refine ih (n / 10) _ (fun c' hc' => ?_) c hc
      rcases List.mem_cons.mp hc' with he | hm
      · subst he
        exact digitC_ofNat (n % 10) (Nat.mod_lt n (by omega))
      · exact hacc c' hm

/-- Every char of a printed natural number is a decimal digit. -/
theorem natDigits_class (n : Nat) : ∀ c ∈ natDigits n, isDigitC c = true := by
  unfold natDigits
  by_cases hn : n = 0
  · rw [if_pos hn]
    intro c hc
    rw [List.mem_singleton] at hc
    subst hc
    decide
  · rw [if_neg hn]
    exact natDigitsAux_class (n + 1) n [] (fun c hc => absurd hc (List.not_mem_nil c))

theorem padDigits_class (k m : Nat) : ∀ c ∈ padDigits k m, isDigitC c = true := by
  intro c hc
  unfold padDigits at hc
  rcases List.mem_append.mp hc with h1 | h1
  · rw [List.eq_of_mem_replicate h1]
    decide
  · exact natDigits_class m c h1

/-- Every char of the serialized amount field is a sign, a decimal
point, or a digit. -/
theorem amt_class (q : Rat) : ∀ c ∈ amtFieldChars q,
    c = '+' ∨ c = '-' ∨ c = '.' ∨ isDigitC c = true := by
  intro c hc
  unfold amtFieldChars at hc
  rcases List.mem_append.mp hc with h1 | h1
  · by_cases hq : 0 < q
    · rw [if_pos hq, List.mem_singleton] at h1
      exact Or.inl h1
    · rw [if_neg hq] at h1
      exact absurd h1 (List.not_mem_nil c)
  · unfold ratToJsChars at h1
    by_cases hden : q.den = 1
    · rw [if_pos hden] at h1
      unfold intDigits at h1
      rcases List.mem_append.mp h1 with h2 | h2
      · by_cases hneg : q.num < 0
        · rw [if_pos hneg, List.mem_singleton] at h2
          exact Or.inr (Or.inl h2)
        · rw [if_neg hneg] at h2
          exact absurd h2 (List.not_mem_nil c)
      · exact Or.inr (Or.inr (Or.inr (natDigits_class _ c h2)))
    · rw [if_neg hden] at h1
      cases hk : decExp q.den with
      | some k =>
        rw [hk] at h1
        dsimp only at h1
        rcases List.mem_append.mp h1 with h2 | h2
        · rcases List.mem_append.mp h2 with h3 | h3
          · by_cases hneg : q.num < 0
            · rw [if_pos hneg, List.mem_singleton] at h3
              exact Or.inr (Or.inl h3)
            · rw [if_neg hneg] at h3
              exact absurd h3 (List.not_mem_nil c)
          · exact Or.inr (Or.inr (Or.inr (natDigits_class _ c h3)))
        · rcases List.mem_cons.mp h2 with h3 | h3
          · exact Or.inr (Or.inr (Or.inl h3))
          · exact Or.inr (Or.inr (Or.inr (padDigits_class _ _ c h3)))
      | none =>
        rw [hk] at h1
        unfold intDigits at h1
        rcases List.mem_append.mp h1 with h2 | h2
        · by_cases hneg : q.num < 0
          · rw [if_pos hneg, List.mem_singleton] at h2
            exact Or.inr (Or.inl h2)
          · rw [if_neg hneg] at h2
            exact absurd h2 (List.not_mem_nil c)
        · exact Or.inr (Or.inr (Or.inr (natDigits_class _ c h2)))

theorem pipe_not_mem_amt (q : Rat) : '|' ∉ amtFieldChars q := by
  intro hm
  rcases amt_class q '|' hm with h | h | h | h <;> first
    | cases h
    | exact absurd h (by decide)

theorem nl_not_mem_amt (q : Rat) : '\n' ∉ amtFieldChars q := by
  intro hm
  rcases amt_class q '\n' hm with h | h | h | h <;> first
    | cases h
    | exact absurd h (by decide)

/-- `decExp` finds an exponent whenever the denominator divides a power
of ten (the case `den = 2^a * 5^b` of every JS float). -/
theorem decExp_isSome (den : Nat) (hpos : 0 < den)
    (h : ∃ a b, den = 2 ^ a * 5 ^ b) : ∃ k, decExp den = some k := by
  obtain ⟨a, b, he⟩ := h
  have hdvd : den ∣ 10 ^ max a b := by
    rw [he, show (10 : Nat) = 2 * 5 from rfl, Nat.mul_pow]
    exact Nat.mul_dvd_mul (Nat.pow_dvd_pow 2 (le_max_left a b))
      (Nat.pow_dvd_pow 5 (le_max_right a b))
  have ha : a < den := by
    have h2 : 2 ^ a ≤ den := by
      rw [he]
      exact Nat.le_mul_of_pos_right _ (Nat.pos_pow_of_pos b (by omega))
    exact lt_of_lt_of_le (Nat.lt_two_pow a) h2
  have hb : b < den := by
    have h5 : 5 ^ b ≤ den := by
      rw [he]
      exact Nat.le_mul_of_pos_left _ (Nat.pos_pow_of_pos a (by omega))
    exact lt_of_lt_of_le (lt_of_lt_of_le (Nat.lt_two_pow b)
      (Nat.pow_le_pow_left (by omega) b)) h5
  have hmem : max a b ∈ List.range (den + 1) := by
    rw [List.mem_range]
    omega
  have hsome : ((List.range (den + 1)).find?
      (fun k => 10 ^ k % den = 0)).isSome := by
    rw [List.find?_isSome]
    refine ⟨max a b, hmem, ?_⟩
    simp only [decide_eq_true_eq]
    obtain ⟨m, hm⟩ := hdvd
    rw [hm]
    exact Nat.mul_mod_right den m
  cases hf : (List.range (den + 1)).find? (fun k => 10 ^ k % den = 0) with
  | none => rw [hf] at hsome; cases hsome
  | some k => exact ⟨k, hf⟩

/-- A non-integer amount with a decimal denominator prints with a
decimal point. -/
theorem dot_mem_amt (q : Rat) (k : Nat) (hden : q.den ≠ 1)
    (hk : decExp q.den = some k) : '.' ∈ amtFieldChars q := by
  unfold amtFieldChars
  refine List.mem_append.mpr (Or.inr ?_)
  unfold ratToJsChars
  rw [if_neg hden, hk]
  dsimp only
  refine List.mem_append.mpr (Or.inr ?_)
  exact List.mem_cons_self _ _

/- ### Completeness of the circle-line grammar on well-formed lines -/

/-- Completeness: a circle line built from a trim-stable pipe-free id, a
trim-stable pipe-free name and a nonempty `.`-matchable flag parses to
exactly those three captures. -/
theorem matchCircleLine_complete (i nm fl : List Char)
    (hi : fieldOkL i) (hn : fieldOkL nm) (hfl1 : fl ≠ [])
    (hfl2 : fl.all dotOk = true) :
    matchCircleLineL (idColonL ++ (i ++ ' ' :: '|' :: ' ' ::
        (mingchengL ++ (nm ++ ' ' :: '|' :: ' ' :: (morenL ++ fl))))) =
      some (i, nm, fl) := by
  have hemp : fl.isEmpty = false := by
    cases fl with
    | nil => exact absurd rfl hfl1
    | cons c r => rfl
  have hpfx : expectPfx idColonL (idColonL ++ (i ++ ' ' :: '|' :: ' ' ::
      (mingchengL ++ (nm ++ ' ' :: '|' :: ' ' :: (morenL ++ fl))))) =
      some (i ++ ' ' :: '|' :: ' ' ::
        (mingchengL ++ (nm ++ ' ' :: '|' :: ' ' :: (morenL ++ fl)))) :=
    expectPfx_self _ _
  simp only [matchCircleLineL, hpfx]
  unfold lazyDot
  refine lazyDotGo_spec _ i [] (' ' :: '|' :: ' ' ::
      (mingchengL ++ (nm ++ ' ' :: '|' :: ' ' :: (morenL ++ fl))))
      (i, nm, fl) hi.1 hi.2.2.2 (fun j hj hjl => ?_) ?_
  · simp only [fieldFail i _ hi.2.1 hi.2.2.1 j hjl]
  · simp only [List.nil_append]
    have e1 : expectCh '|' (dropWsL (' ' :: '|' :: ' ' ::
        (mingchengL ++ (nm ++ ' ' :: '|' :: ' ' :: (morenL ++ fl))))) =
        some (' ' :: (mingchengL ++ (nm ++ ' ' :: '|' :: ' ' ::
          (morenL ++ fl)))) := rfl
    have e2 : dropWsL (' ' :: (mingchengL ++ (nm ++ ' ' :: '|' :: ' ' ::
        (morenL ++ fl)))) =
        mingchengL ++ (nm ++ ' ' :: '|' :: ' ' :: (morenL ++ fl)) := rfl
    have e3 : expectPfx mingchengL (mingchengL ++ (nm ++ ' ' :: '|' :: ' ' ::
        (morenL ++ fl))) = some (nm ++ ' ' :: '|' :: ' ' :: (morenL ++ fl)) :=
      expectPfx_self _ _
    simp only [e1, e2, e3]
    refine lazyDotGo_spec _ nm [] (' ' :: '|' :: ' ' :: (morenL ++ fl))
        (i, nm, fl) hn.1 hn.2.2.2 (fun j hj hjl => ?_) ?_
    · simp only [fieldFail nm _ hn.2.1 hn.2.2.1 j hjl]
    · simp only [List.nil_append]
      have e4 : expectCh '|' (dropWsL (' ' :: '|' :: ' ' :: (morenL ++ fl))) =
          some (' ' :: (morenL ++ fl)) := rfl
      have e5 : dropWsL (' ' :: (morenL ++ fl)) = morenL ++ fl := rfl
      have e6 : expectPfx morenL (morenL ++ fl) = some fl := expectPfx_self _ _
      simp only [e4, e5, e6, hemp, hfl2, Bool.not_false, Bool.and_self, if_true]

/- ### Shapes and invariants of the serialized lines -/

/-- The exported record line in separator-explicit form. -/
theorem recordLine_shape (circles : List CircleT) (r : RecordT) :
    recordLineL circles r = r.date.data ++ ' ' :: '|' :: ' ' ::
      (amtFieldChars r.amount ++ ' ' :: '|' :: ' ' ::
        (circleNameForL circles r ++ ' ' :: '|' :: ' ' ::
          (beizhuL ++ replaceNlSpace r.note.data))) := by
  unfold recordLineL
  have h1 : (" | ").data = [' ', '|', ' '] := rfl
  have h2 : (" | 备注:").data = ' ' :: '|' :: ' ' :: beizhuL := rfl
  rw [h1, h2]
  simp [List.append_assoc]

/-- A serialized circle line holds no newline when its fields do not. -/
theorem nl_not_mem_circleLine (c : CircleT) (hid : fieldOk c.id)
    (hname : fieldOk c.name) : '\n' ∉ circleLineL c := by
  intro hm
  unfold circleLineL at hm
  rcases List.mem_append.mp hm with hm | h
  · rcases List.mem_append.mp hm with hm | h
    · rcases List.mem_append.mp hm with hm | h
      · rcases List.mem_append.mp hm with hm | h
        · rcases List.mem_append.mp hm with hm | h
          · rcases List.mem_append.mp hm with hm | h
            · rcases List.mem_append.mp hm with h | h
              · exact absurd h (by decide)
              · exact no_nl_of_dotOk _ hid.2.2.2 h
            · exact absurd h (by decide)
          · exact absurd h (by decide)
        · exact no_nl_of_dotOk _ hname.2.2.2 h
      · exact absurd h (by decide)
    · exact absurd h (by decide)
  · by_cases hb : c.isDefault = true
    · rw [if_pos hb] at h
      exact absurd h (by decide)
    · rw [if_neg hb] at h
      exact absurd h (by decide)

/-- A serialized record line holds no newline when its date and circle
name do not (the amount and note are newline-free by construction). -/
theorem nl_not_mem_recordLine (circles : List CircleT) (r : RecordT)
    (hd : '\n' ∉ r.date.data) (hn : '\n' ∉ circleNameForL circles r) :
    '\n' ∉ recordLineL circles r := by
  intro hm
  unfold recordLineL at hm
  rcases List.mem_append.mp hm with hm | h
  · rcases List.mem_append.mp hm with hm | h
    · rcases List.mem_append.mp hm with hm | h
      · rcases List.mem_append.mp hm with hm | h
        · rcases List.mem_append.mp hm with hm | h
          · rcases List.mem_append.mp hm with h | h
            · exact hd h
            · exact absurd h (by decide)
          · exact nl_not_mem_amt r.amount h
        · exact absurd h (by decide)
      · exact hn h
    · exact absurd h (by decide)
  · exact replaceNl_no_nl _ h

/-- The serialized circle name is a well-formed field whenever the
store's circles are (the unknown-circle fallback is well-formed by
construction). -/
theorem circleNameFor_fieldOk (circles : List CircleT) (r : RecordT)
    (hcf : circlesFieldOk circles) : fieldOkL (circleNameForL circles r) := by
  unfold circleNameForL
  cases hf : circles.find? (fun c => c.id = r.circleId) with
  | none =>
    refine ⟨by decide, by decide, by decide, by decide⟩
  | some c0 =>
    exact (hcf c0 (List.mem_of_find?_eq_some hf)).2

/-- A record line with well-formed date and note is trim-stable. -/
theorem recordLine_stable (circles : List CircleT) (r : RecordT)
    (hd : fieldOk r.date) (hn : noteOk r.note) :
    jsTrimL (recordLineL circles r) = recordLineL circles r := by
  have ht : replaceNlSpace r.note.data = r.note.data :=
    replaceNl_id _ (no_nl_of_dotOk _ hn.2)
  apply trim_stable_of
  · obtain ⟨c0, r0, he, hw⟩ := stable_head_cons r.date.data hd.1 hd.2.1
    rw [recordLine_shape, he, List.cons_append]
    exact dropWhile_cons_head jsWsChar c0 _ hw
  · by_cases hne : r.note.data = []
    · have hsplit : recordLineL circles r =
          (r.date.data ++ ' ' :: '|' :: ' ' ::
            (amtFieldChars r.amount ++ ' ' :: '|' :: ' ' ::
              (circleNameForL circles r ++ [' ', '|', ' ']))) ++ beizhuL := by
        rw [recordLine_shape, ht, hne]
        simp [List.append_assoc]
      rw [hsplit, List.reverse_append]
      exact dropWhile_cons_head jsWsChar ':' _ (by decide)
    · obtain ⟨c0, r0, hrev, hw⟩ := stable_rev_head r.note.data hne hn.1
      have hsplit : recordLineL circles r =
          (r.date.data ++ ' ' :: '|' :: ' ' ::
            (amtFieldChars r.amount ++ ' ' :: '|' :: ' ' ::
              (circleNameForL circles r ++ ' ' :: '|' :: ' ' :: beizhuL))) ++
            r.note.data := by
        rw [recordLine_shape, ht]
        simp [List.append_assoc]
      rw [hsplit, List.reverse_append, hrev, List.cons_append]
      exact dropWhile_cons_head jsWsChar c0 _ hw

/-- A record line whose date does not start with `[` is not a section
header. -/
theorem recordLine_header_false (circles : List CircleT) (r : RecordT)
    (hd : fieldOk r.date) (hdh : r.date.data.head? ≠ some '[') :
    headerIs (jsTrimL (recordLineL circles r)) = false := by
  obtain ⟨c0, r0, he, hw⟩ := stable_head_cons r.date.data hd.1 hd.2.1
  have hc0 : ¬ c0 = '[' := fun heq => hdh (by rw [he, heq]; rfl)
  rw [recordLine_shape, he, List.cons_append]
  exact not_header_of_head c0 _ hw hc0

/- ### The section scan on individual export lines -/

/-- Blank lines are skipped in every section. -/
theorem parseStep_blank (st : Sect × List PCircle × List PRec) :
    parseBackupStep st [] = st := rfl

/-- A non-header line outside both sections is ignored. -/
theorem parseStep_noSect (cs : List PCircle) (rs : List PRec)
    (line : List Char) (h : headerIs (jsTrimL line) = false) :
    parseBackupStep (Sect.noSect, cs, rs) line = (Sect.noSect, cs, rs) := by
  unfold parseBackupStep
  dsimp only
  by_cases he : (jsTrimL line).isEmpty = true
  · rw [if_pos he]
  · rw [if_neg he, if_neg (show ¬ headerIs (jsTrimL line) = true by
      rw [h]; exact Bool.false_ne_true)]

/-- A line headed by a non-whitespace, non-bracket char is ignored
outside both sections. -/
theorem parseStep_headchar (cs : List PCircle) (rs : List PRec) (c : Char)
    (l : List Char) (hc1 : jsWsChar c = false) (hc2 : ¬ c = '[') :
    parseBackupStep (Sect.noSect, cs, rs) (c :: l) = (Sect.noSect, cs, rs) :=
  parseStep_noSect cs rs _ (not_header_of_head c l hc1 hc2)

/-- The serialized circle line in separator-explicit form. -/
theorem circleLine_shape (c : CircleT) (fl : List Char)
    (hfl : (if c.isDefault = true then ("是").data else ("否").data) = fl) :
    circleLineL c = idColonL ++ (c.id.data ++ ' ' :: '|' :: ' ' ::
      (mingchengL ++ (c.name.data ++ ' ' :: '|' :: ' ' :: (morenL ++ fl)))) := by
  unfold circleLineL
  rw [hfl]
  have h1 : (" | ").data = [' ', '|', ' '] := rfl
  rw [h1]
  simp [List.append_assoc]

/-- Scanning a serialized circle line inside the circle section appends
exactly the circle's row. -/
theorem parseStep_circle_gen (cs : List PCircle) (rs : List PRec)
    (c : CircleT) (fl : List Char) (b : Bool)
    (hid : fieldOk c.id) (hname : fieldOk c.name)
    (hline : circleLineL c = idColonL ++ (c.id.data ++ ' ' :: '|' :: ' ' ::
      (mingchengL ++ (c.name.data ++ ' ' :: '|' :: ' ' :: (morenL ++ fl)))))
    (hfl1 : fl ≠ []) (hfl2 : fl.all dotOk = true)
    (hfl3 : ∃ c0 r0, fl.reverse = c0 :: r0 ∧ jsWsChar c0 = false)
    (hfl4 : decide (jsTrimL fl = ("是").data) = b)
    (hbb : c.isDefault = b) :
    parseBackupStep (Sect.circSect, cs, rs) (circleLineL c) =
      (Sect.circSect, cs ++ [toPC c], rs) := by
  have hstable : jsTrimL (circleLineL c) = circleLineL c := by
    apply trim_stable_of
    · rw [hline]
      exact dropWhile_cons_head jsWsChar 'I' _ (by decide)
    · have hsplit : circleLineL c = (idColonL ++ (c.id.data ++ ' ' :: '|' :: ' ' ::
          (mingchengL ++ (c.name.data ++ ' ' :: '|' :: ' ' :: morenL)))) ++ fl := by
        rw [hline]
        simp [List.append_assoc]
      obtain ⟨c0, r0, hrev, hw⟩ := hfl3
      rw [hsplit, List.reverse_append, hrev, List.cons_append]
      exact dropWhile_cons_head jsWsChar c0 _ hw
  have hmatch : matchCircleLineL (circleLineL c) =
      some (c.id.data, c.name.data, fl) := by
    rw [hline]
    exact matchCircleLine_complete c.id.data c.name.data fl hid hname hfl1 hfl2
  have hne' : (circleLineL c).isEmpty = false := by
    rw [hline]
    rfl
  have hhd' : headerIs (circleLineL c) = false := by
    rw [hline]
    rfl
  unfold parseBackupStep
  dsimp only
  rw [if_neg (show ¬ ((jsTrimL (circleLineL c)).isEmpty = true) by
    rw [hstable, hne']; exact Bool.false_ne_true)]
  rw [if_neg (show ¬ headerIs (jsTrimL (circleLineL c)) = true by
    rw [hstable, hhd']; exact Bool.false_ne_true)]
  simp only [hstable, hmatch]
  simp only [hid.2.1, hname.2.1, hfl4]
  simp only [toPC]
  rw [hbb]

theorem parseStep_circle (cs : List PCircle) (rs : List PRec) (c : CircleT)
    (hid : fieldOk c.id) (hname : fieldOk c.name) :
    parseBackupStep (Sect.circSect, cs, rs) (circleLineL c) =
      (Sect.circSect, cs ++ [toPC c], rs) := by
  cases hb : c.isDefault with
  | false =>
    exact parseStep_circle_gen cs rs c (("否").data) false hid hname
      (circleLine_shape c _ (by rw [hb]; rfl)) (by decide) (by decide)
      ⟨'否', [], by decide, by decide⟩ (by decide) hb
  | true =>
    exact parseStep_circle_gen cs rs c (("是").data) true hid hname
      (circleLine_shape c _ (by rw [hb]; rfl)) (by decide) (by decide)
      ⟨'是', [], by decide, by decide⟩ (by decide) hb

/-- Scanning the circle table appends exactly the circles' rows. -/
theorem parseFold_circles (circles : List CircleT) (cs : List PCircle)
    (rs : List PRec) (h : circlesFieldOk circles) :
    (circles.map circleLineL).foldl parseBackupStep (Sect.circSect, cs, rs) =
      (Sect.circSect, cs ++ circles.map toPC, rs) := by
  induction circles generalizing cs with
  | nil => simp
  | cons c cl ih =>
    obtain ⟨hid, hname⟩ := h c (List.mem_cons_self c cl)
    rw [List.map_cons, List.foldl_cons, parseStep_circle cs rs c hid hname,
      ih (cs ++ [toPC c]) (fun c' h' => h c' (List.mem_cons_of_mem _ h'))]
    simp [List.append_assoc]

/-- Scanning a well-formed record line inside the record section appends
exactly the parsed record. -/
theorem parseStep_record (circles : List CircleT) (cs : List PCircle)
    (rs : List PRec) (r : RecordT) (v : Int)
    (hd : fieldOk r.date) (hdh : r.date.data.head? ≠ some '[')
    (hn : noteOk r.note) (hcn : fieldOkL (circleNameForL circles r))
    (has : checkSignedDigits (amtFieldChars r.amount) = some v) :
    parseBackupStep (Sect.recSect, cs, rs) (recordLineL circles r) =
      (Sect.recSect, cs,
        rs ++ [⟨r.date, v, String.mk (circleNameForL circles r), r.note⟩]) := by
  have hrepl : replaceNlSpace r.note.data = r.note.data :=
    replaceNl_id _ (no_nl_of_dotOk _ hn.2)
  have hstable := recordLine_stable circles r hd hn
  have hhd := recordLine_header_false circles r hd hdh
  have hta : (replaceNlSpace r.note.data).all dotOk = true := by
    rw [hrepl]
    exact List.all_eq_true.mpr hn.2
  have hmatch : matchRecordLineL (recordLineL circles r) =
      some (r.date.data, v, circleNameForL circles r,
        replaceNlSpace r.note.data) := by
    rw [recordLine_shape]
    exact matchRecordLine_complete _ _ _ _ v hd hcn has hta
  have hne' : (recordLineL circles r).isEmpty = false := by
    obtain ⟨c0, r0, he, hw⟩ := stable_head_cons r.date.data hd.1 hd.2.1
    rw [recordLine_shape, he, List.cons_append]
    rfl
  unfold parseBackupStep
  dsimp only
  rw [if_neg (show ¬ ((jsTrimL (recordLineL circles r)).isEmpty = true) by
    rw [hstable, hne']; exact Bool.false_ne_true)]
  rw [if_neg (show ¬ headerIs (jsTrimL (recordLineL circles r)) = true by
    rw [hhd]; exact Bool.false_ne_true)]
  simp only [hstable, hmatch]
  simp only [hd.2.1, hcn.2.1, hrepl, hn.1]

/-- A malformed line inside the record section is silently skipped. -/
theorem parseStep_rec_skip (cs : List PCircle) (rs : List PRec)
    (line : List Char) (hh : headerIs (jsTrimL line) = false)
    (hm : matchRecordLineL (jsTrimL line) = none) :
    parseBackupStep (Sect.recSect, cs, rs) line = (Sect.recSect, cs, rs) := by
  unfold parseBackupStep
  dsimp only
  by_cases he : (jsTrimL line).isEmpty = true
  · rw [if_pos he]
  · rw [if_neg he, if_neg (show ¬ headerIs (jsTrimL line) = true by
      rw [hh]; exact Bool.false_ne_true)]
    simp only [hm]

/- ### The full section scan of an export body -/

/-- Scanning the whole export body: the header lines switch into the
circle section, the circle table parses to the circles' rows, the record
header switches into the record section, and the scan continues with the
serialized record lines. -/
theorem parseBackup_export (now uid : String) (circles : List CircleT)
    (records : List RecordT)
    (hnow : '\n' ∉ now.data) (huid : '\n' ∉ uid.data)
    (hcf : circlesFieldOk circles)
    (hrl : ∀ l ∈ records.map (recordLineL circles), '\n' ∉ l) :
    (splitNlL (exportTextL now uid circles records)).foldl parseBackupStep
      (Sect.noSect, [], []) =
      (records.map (recordLineL circles)).foldl parseBackupStep
        (Sect.recSect, circles.map toPC, []) := by
  have hsplit : splitNlL (exportTextL now uid circles records) =
      exportLinesL now uid circles records := by
    unfold exportTextL
    apply splitNl_join
    · intro l hl
      unfold exportLinesL at hl
      rcases List.mem_append.mp hl with hl | hl
      · rcases List.mem_append.mp hl with hl | hl
        · rcases List.mem_append.mp hl with hl | hl
          · simp only [List.mem_cons, List.not_mem_nil, or_false] at hl
            rcases hl with rfl | rfl | rfl | rfl | rfl | rfl
            · decide
            · intro hm
              rcases List.mem_append.mp hm with h | h
              · exact absurd h (by decide)
              · exact hnow h
            · intro hm
              rcases List.mem_append.mp hm with h | h
              · exact absurd h (by decide)
              · exact huid h
            · decide
            · exact List.not_mem_nil _
            · decide
          · obtain ⟨c, hc, rfl⟩ := List.mem_map.mp hl
            obtain ⟨hid, hname⟩ := hcf c hc
            exact nl_not_mem_circleLine c hid hname
        · simp only [List.mem_cons, List.not_mem_nil, or_false] at hl
          rcases hl with rfl | rfl
          · exact List.not_mem_nil _
          · decide
      · exact hrl l hl
    · unfold exportLinesL
      simp
  rw [hsplit]
  unfold exportLinesL
  rw [List.foldl_append, List.foldl_append, List.foldl_append]
  have e1 : parseBackupStep (Sect.noSect, ([] : List PCircle), ([] : List PRec))
      (("[麻上记账本数据导出]").data) = (Sect.noSect, [], []) := rfl
  have e2 : parseBackupStep (Sect.noSect, ([] : List PCircle), ([] : List PRec))
      (("导出时间: ").data ++ now.data) = (Sect.noSect, [], []) :=
    parseStep_headchar [] [] '导' (("出时间: ").data ++ now.data)
      (by decide) (by decide)
  have e3 : parseBackupStep (Sect.noSect, ([] : List PCircle), ([] : List PRec))
      (("用户ID: ").data ++ uid.data) = (Sect.noSect, [], []) :=
    parseStep_headchar [] [] '用' (("户ID: ").data ++ uid.data)
      (by decide) (by decide)
  have e4 : parseBackupStep (Sect.noSect, ([] : List PCircle), ([] : List PRec))
      (("----------------------------------------").data) =
      (Sect.noSect, [], []) := rfl
  have e6 : parseBackupStep (Sect.noSect, ([] : List PCircle), ([] : List PRec))
      (("[圈子列表]").data) = (Sect.circSect, [], []) := rfl
  have e8 : parseBackupStep (Sect.circSect, circles.map toPC, ([] : List PRec))
      (("[记账记录]").data) = (Sect.recSect, circles.map toPC, []) := rfl
  have h6 : List.foldl parseBackupStep
      (Sect.noSect, ([] : List PCircle), ([] : List PRec))
      [("[麻上记账本数据导出]").data, ("导出时间: ").data ++ now.data,
        ("用户ID: ").data ++ uid.data,
        ("----------------------------------------").data, [],
        ("[圈子列表]").data] = (Sect.circSect, [], []) := by
    rw [List.foldl_cons, e1, List.foldl_cons, e2, List.foldl_cons, e3,
      List.foldl_cons, e4, List.foldl_cons, parseStep_blank, List.foldl_cons,
      e6, List.foldl_nil]
  rw [h6, parseFold_circles circles [] [] hcf]
  simp only [List.nil_append]
  rw [List.foldl_cons, parseStep_blank, List.foldl_cons, e8, List.foldl_nil]

/-- Exporting one well-formed record and re-scanning yields the circles'
rows and that single parsed record. -/
theorem parseBackup_export_single (now uid : String) (circles : List CircleT)
    (r : RecordT) (v : Int)
    (hnow : '\n' ∉ now.data) (huid : '\n' ∉ uid.data)
    (hcf : circlesFieldOk circles)
    (hd : fieldOk r.date) (hdh : r.date.data.head? ≠ some '[')
    (hn : noteOk r.note)
    (has : checkSignedDigits (amtFieldChars r.amount) = some v) :
    parseBackupL (exportTextL now uid circles [r]) =
      (circles.map toPC,
        [⟨r.date, v, String.mk (circleNameForL circles r), r.note⟩]) := by
  have hcn : fieldOkL (circleNameForL circles r) :=
    circleNameFor_fieldOk circles r hcf
  have hrl : ∀ l ∈ ([r].map (recordLineL circles)), '\n' ∉ l := by
    intro l hl
    simp only [List.map_cons, List.map_nil, List.mem_singleton] at hl
    subst hl
    exact nl_not_mem_recordLine circles r (no_nl_of_dotOk _ hd.2.2.2)
      (no_nl_of_dotOk _ hcn.2.2.2)
  unfold parseBackupL
  rw [parseBackup_export now uid circles [r] hnow huid hcf hrl]
  simp only [List.map_cons, List.map_nil, List.foldl_cons, List.foldl_nil]
  rw [parseStep_record circles _ _ r v hd hdh hn hcn has]
  simp only [List.nil_append]

/- ### The record-merge step on a fresh single record -/

/-- One record-merge iteration from the empty staging state, when the
record's circle resolves by name and no existing record matches the
duplicate predicate: the record is staged under a fresh id and the
resolved circle id. -/
theorem recordStep_single (gen : Nat → String) (cur : List CircleT)
    (curRecs : List RecordT) (pr : PRec) (c : CircleT) (cnt ctr : Nat)
    (hfind : cur.find? (fun c' => c'.name = pr.circleName) = some c)
    (hdup : ∀ r' ∈ curRecs, isDupRec c.id pr r' = false) :
    recordStep gen cur curRecs ⟨[], [], cnt, ctr⟩ pr =
      ⟨[], [⟨gen ctr, c.id, (pr.amount : Rat), pr.date, pr.note⟩],
        cnt, ctr + 1⟩ := by
  unfold recordStep
  dsimp only
  have hfind' : (cur ++ []).find? (fun c' => c'.name = pr.circleName) = some c := by
    rw [List.append_nil]
    exact hfind
  have htarget : resolveTarget (cur ++ []) pr.circleName = c.id := by
    unfold resolveTarget
    rw [hfind']
  have hdupnone : curRecs.find?
      (isDupRec (resolveTarget (cur ++ []) pr.circleName) pr) = none := by
    rw [htarget]
    exact List.find?_eq_none.mpr (fun r' hr' => by simp [hdup r' hr'])
  rw [if_neg (show ¬ ((curRecs.find? (isDupRec
      (resolveTarget (cur ++ []) pr.circleName) pr)).isSome = true) by
    rw [hdupnone]; simp)]
  simp only [hfind']
  unfold recordStage
  dsimp only
  rw [if_neg (show ¬ (List.any ([] : List RecordT)
      (fun r => r.id = gen ctr) = true) by simp)]
  simp

/- ### C6: sign-preserving export/import round trip -/

/-- C6: exporting a stored record with integer amount `-190` (newline-free
date/note fields, resolvable circle) and importing the export against a
store holding the same circles but no matching record stages exactly one
record with amount exactly `-190` and the same date, resolved circle id,
and note. -/
theorem c6_sign_round_trip (gen : Nat → String) (now uid : String)
    (circles : List CircleT) (recsB : List RecordT) (r : RecordT) (c : CircleT)
    (hnow : '\n' ∉ now.data) (huid : '\n' ∉ uid.data)
    (hcf : circlesFieldOk circles)
    (hfind : circles.find? (fun c' => c'.id = r.circleId) = some c)
    (hfname : circles.find? (fun c' => c'.name = c.name) = some c)
    (hamt : r.amount = (-190 : Rat))
    (hd : fieldOk r.date) (hdh : r.date.data.head? ≠ some '[')
    (hn : noteOk r.note)
    (hdup : ∀ r' ∈ recsB, isDupRec c.id ⟨r.date, -190, c.name, r.note⟩ r' = false) :
    (runImport gen (exportTextL now uid circles [r]) circles recsB).newRecords =
      [⟨gen 0, c.id, (-190 : Rat), r.date, r.note⟩] := by
  have hcn0 : circleNameForL circles r = c.name.data := by
    unfold circleNameForL
    rw [hfind]
  have has : checkSignedDigits (amtFieldChars r.amount) = some (-190 : Int) := by
    rw [hamt]
    rfl
  have hparse := parseBackup_export_single now uid circles r (-190)
    hnow huid hcf hd hdh hn has
  rw [hcn0] at hparse
  have hmk : String.mk c.name.data = c.name := rfl
  rw [hmk] at hparse
  have hskip : ∀ pc ∈ circles.map toPC,
      (∃ c' ∈ circles, c'.id = pc.id) ∨ (∃ c' ∈ circles, c'.name = pc.name) := by
    intro pc hpc
    obtain ⟨c', hc', he⟩ := List.mem_map.mp hpc
    refine Or.inl ⟨c', hc', ?_⟩
    rw [← he]
    rfl
  have hmerge := mergeFold_skip gen circles (circles.map toPC) 0 0 hskip
  have hstep := recordStep_single gen circles recsB
    ⟨r.date, -190, c.name, r.note⟩ c 0 0 hfname hdup
  unfold runImport
  dsimp only
  rw [hparse]
  dsimp only
  rw [hmerge]
  dsimp only
  rw [List.foldl_cons, hstep, List.foldl_nil]
  simp [show ((-190 : Int) : Rat) = (-190 : Rat) by norm_num]

/-- Closed instance of `c6_sign_round_trip`: the backup of one `-190`
record round-trips into a fresh store copy with amount `-190`. -/
theorem c6_sign_round_trip_witness :
    (runImport (fun _ => "gid") (exportTextL "t" "u" c2cur [c6rec]) c2cur
      []).newRecords =
      [⟨"gid", "cid1", (-190 : Rat), "2024-02-14", "hello"⟩] :=
  c6_sign_round_trip (fun _ => "gid") "t" "u" c2cur [] c6rec
    ⟨"cid1", "雀神会", false⟩
    (by decide) (by decide)
    (by
      intro c hc
      simp only [c2cur, List.mem_singleton] at hc
      subst hc
      exact ⟨⟨by decide, by decide, by decide, by decide⟩,
        ⟨by decide, by decide, by decide, by decide⟩⟩)
    (by decide) (by decide) (by decide)
    ⟨by decide, by decide, by decide, by decide⟩
    (by decide)
    ⟨by decide, by decide⟩
    (fun r' hr' => absurd hr' (List.not_mem_nil r'))

/- ### C8: legacy identity-column tolerance -/

/-- C8 counterexample: the legacy variant of a record line with
` | ID:abc` appended still parses, but the identity suffix is folded into
the note capture, so the parsed note differs from the current-format
line's note. -/
theorem c8_legacy_note_cex :
    matchRecordLineL c8line =
      some (("2024-02-14").data, (-190 : Int), ("雀神会").data, ("hi").data) ∧
    matchRecordLineL c8lineOld =
      some (("2024-02-14").data, (-190 : Int), ("雀神会").data,
        ("hi | ID:abc").data) ∧
    ("hi | ID:abc").data ≠ ("hi").data :=
  ⟨rfl, rfl, by decide⟩

/-- C8 (amended): for every well-formed current-format record line, the
older variant with ` | ID:<id>` appended at end-of-line also parses
successfully, with the same date, amount and circle name; the identity
column is not required, but it is not stripped either — it is folded
into the parsed note together with its ` | ` separator. -/
theorem c8_legacy_tolerance_amended (d as n t i : List Char) (v : Int)
    (hd : fieldOkL d) (hn : fieldOkL n) (has : checkSignedDigits as = some v)
    (ht : t.all dotOk = true) (hi : i.all dotOk = true) :
    matchRecordLineL (d ++ ' ' :: '|' :: ' ' :: (as ++ ' ' :: '|' :: ' ' ::
        (n ++ ' ' :: '|' :: ' ' :: (beizhuL ++ t)))) = some (d, v, n, t) ∧
    matchRecordLineL (d ++ ' ' :: '|' :: ' ' :: (as ++ ' ' :: '|' :: ' ' ::
        (n ++ ' ' :: '|' :: ' ' ::
          (beizhuL ++ (t ++ (" | ID:").data ++ i))))) =
      some (d, v, n, t ++ (" | ID:").data ++ i) := by
  constructor
  · exact matchRecordLine_complete d as n t v hd hn has ht
  · apply matchRecordLine_complete d as n _ v hd hn has
    simp only [List.all_append, ht, hi, Bool.true_and, Bool.and_true]
    decide

/-- Closed instance of `c8_legacy_tolerance_amended`. -/
theorem c8_legacy_tolerance_amended_witness :
    matchRecordLineL (("2024-02-14").data ++ ' ' :: '|' :: ' ' ::
        (("-190").data ++ ' ' :: '|' :: ' ' ::
          (("雀神会").data ++ ' ' :: '|' :: ' ' ::
            (beizhuL ++ (("hi").data ++ (" | ID:").data ++ ("abc").data))))) =
      some (("2024-02-14").data, (-190 : Int), ("雀神会").data,
        ("hi").data ++ (" | ID:").data ++ ("abc").data) :=
  (c8_legacy_tolerance_amended ("2024-02-14").data ("-190").data
    ("雀神会").data ("hi").data ("abc").data (-190)
    ⟨by decide, by decide, by decide, by decide⟩
    ⟨by decide, by decide, by decide, by decide⟩
    (by decide) (by decide) (by decide)).2

/- ### C10: non-integer amounts do not round-trip -/

/-- C10: a stored record whose amount is a non-integer JS float
(denominator `2^a * 5^b ≠ 1`, pipe-free note) serializes to a line whose
amount field contains a decimal point; on re-import that line fails the
record grammar and is silently skipped, so the parsed record list is
empty and no record is staged against any store. -/
theorem c10_non_integer_skipped (gen : Nat → String) (now uid : String)
    (circles : List CircleT) (r : RecordT)
    (hnow : '\n' ∉ now.data) (huid : '\n' ∉ uid.data)
    (hcf : circlesFieldOk circles)
    (hden : r.amount.den ≠ 1)
    (hpow : ∃ a b, r.amount.den = 2 ^ a * 5 ^ b)
    (hd : fieldOk r.date) (hdh : r.date.data.head? ≠ some '[')
    (hn : noteOk r.note) (hpn : '|' ∉ r.note.data) :
    (parseBackupL (exportTextL now uid circles [r])).2 = [] ∧
    ∀ (cur : List CircleT) (curRecs : List RecordT),
      (runImport gen (exportTextL now uid circles [r]) cur
        curRecs).newRecords = [] := by
  obtain ⟨k, hk⟩ := decExp_isSome r.amount.den
    (Nat.pos_of_ne_zero r.amount.den_nz) hpow
  have hdot : '.' ∈ amtFieldChars r.amount := dot_mem_amt _ k hden hk
  have hcn : fieldOkL (circleNameForL circles r) :=
    circleNameFor_fieldOk circles r hcf
  have hstable := recordLine_stable circles r hd hn
  have hnomatch : matchRecordLineL (jsTrimL (recordLineL circles r)) = none := by
    rw [hstable, recordLine_shape, replaceNl_id _ (no_nl_of_dotOk _ hn.2)]
    exact recordLine_noMatch r.date.data (amtFieldChars r.amount)
      (circleNameForL circles r) r.note.data hd.2.2.1 hcn.2.2.1 hpn
      (pipe_not_mem_amt _) hdot
  have hrl : ∀ l ∈ ([r].map (recordLineL circles)), '\n' ∉ l := by
    intro l hl
    simp only [List.map_cons, List.map_nil, List.mem_singleton] at hl
    subst hl
    exact nl_not_mem_recordLine circles r (no_nl_of_dotOk _ hd.2.2.2)
      (no_nl_of_dotOk _ hcn.2.2.2)
  have hparse : parseBackupL (exportTextL now uid circles [r]) =
      (circles.map toPC, []) := by
    unfold parseBackupL
    rw [parseBackup_export now uid circles [r] hnow huid hcf hrl]
    simp only [List.map_cons, List.map_nil, List.foldl_cons, List.foldl_nil]
    rw [parseStep_rec_skip _ _ _
      (recordLine_header_false circles r hd hdh) hnomatch]
  constructor
  · rw [hparse]
  · intro cur curRecs
    unfold runImport
    dsimp only
    rw [hparse]
    rfl

/-- Closed instance of `c10_non_integer_skipped`: the export of an
amount-`800.5` record yields no parsed record and stages nothing. -/
theorem c10_non_integer_skipped_witness :
    (parseBackupL (exportTextL "t" "u" c2cur [c10rec])).2 = [] ∧
    (runImport (fun _ => "gid") (exportTextL "t" "u" c2cur [c10rec]) c2cur
      []).newRecords = [] := by
  have h := c10_non_integer_skipped (fun _ => "gid") "t" "u" c2cur c10rec
    (by decide) (by decide)
    (by
      intro c hc
      simp only [c2cur, List.mem_singleton] at hc
      subst hc
      exact ⟨⟨by decide, by decide, by decide, by decide⟩,
        ⟨by decide, by decide, by decide, by decide⟩⟩)
    (by decide) ⟨1, 0, by decide⟩
    ⟨by decide, by decide, by decide, by decide⟩
    (by decide)
    ⟨by decide, by decide⟩
    (by decide)
  exact ⟨h.1, h.2 c2cur []⟩
